import Mathlib

/-!
Verification of the databridger core: the relationship-inference engine,
the column classifier, the relationship graph with its path resolver, and
the merge planner/executor, modelled as a shallow embedding of
`databridger/database/database.py` together with theorems checking the
natural-language specification against the code.

Python values are embedded as an explicit sum type; a nullable cell is an
`Option PyVal` (a `none` cell stands for NaN/None; the pandas operations
used by the code - `nunique`, `drop_duplicates`, `is_unique` with
`dropna=False`, merge-key comparison - all treat null cells as equal to
each other, which `Option` equality gives directly).  Machine floats do
not occur: the only arithmetic is the subset ratio, embedded exactly in ℚ.
Python exceptions are embedded as an error sum `PyErr`, and fallible code
returns `Except PyErr`.
-/

/-- Embedded Python cell value: integers, rationals (floats), strings,
and timestamps (a date part and a time part, as used by the temporal
classifier branch). -/
inductive PyVal : Type where
| pint : Int → PyVal
| pnum : ℚ → PyVal
| pstr : String → PyVal
| pdt : Int → Int → PyVal
deriving DecidableEq, Repr

/-- Declared dtype of a column, carried by the table store (pandas infers
it at load time; the classifier only branches on it). -/
inductive DType : Type where
| intDt : DType
| floatDt : DType
| objectDt : DType
| datetimeDt : DType
deriving DecidableEq, Repr

/-- Embedded Python exception: `keyError` for a failed dict/column lookup,
`typeError` and `valueError` for the corresponding built-in exceptions,
`exception` for an explicit `raise Exception(msg)`, and `fuelOut` marking
exhaustion of the structural-recursion budget of the path search (proved
unreachable for the budget the top level supplies). -/
inductive PyErr : Type where
| keyError : String → PyErr
| typeError : String → PyErr
| valueError : String → PyErr
| exception : String → PyErr
| fuelOut : PyErr
deriving DecidableEq, Repr

/-- One column of a table: its dtype tag and its cell sequence. -/
structure Series where
dtype : DType
values : List (Option PyVal)
deriving DecidableEq, Repr

/-- One table: its named columns in order. -/
abbrev PyTable : Type := List (String × Series)

/-- The table store: named tables in dictionary (insertion) order. -/
abbrev TableStore : Type := List (String × PyTable)

/-- Non-null cells of a column, in order (`Series.dropna`). -/
def nonNull (vs : List (Option PyVal)) : List PyVal :=
vs.filterMap id

/-- Distinct non-null values of a column, in first-occurrence order
(the value set `set(column.dropna())`). -/
def distinctNonNull (vs : List (Option PyVal)) : List PyVal :=
(nonNull vs).dedup

/-- Uniqueness of a column over its full cell sequence, nulls included as
values (`Series.is_unique`, which compares `nunique(dropna=False)` with
the length; two null cells count as duplicates of each other). -/
def isUniqueCol (vs : List (Option PyVal)) : Bool :=
vs.dedup.length = vs.length

/-- Distinct non-null count of a column (`Series.nunique()`). -/
def nuniqueCol (vs : List (Option PyVal)) : Nat :=
(distinctNonNull vs).length

/-- Subset ratio of `CSVStrategy._compute_subset_ratio`: the fraction of
the foreign (`to_column`) side's distinct non-null values that also occur
among the primary (`from_column`) side's distinct non-null values, and 0
when the foreign side has no non-null values. -/
def subsetRatio (fromCol toCol : List (Option PyVal)) : ℚ :=
let fromSet := distinctNonNull fromCol
let toSet := distinctNonNull toCol
let matching := (fromSet.filter (fun v => v ∈ toSet)).length
if toSet.length = 0 then 0 else mkRat matching toSet.length

/-- Inference threshold `ssr_threshold = 0.95`, as an exact rational. -/
def ssrThreshold : ℚ :=
mkRat 95 100

/-- One row of the column-mapping frame produced by inference: the four
join fields plus the `subset_ratio` column.  The SQL strategy's mapping
frame has no ratio column; a row of that shape carries `none`, and the
positional width of the row (4 or 5 values) is `4 + ratio count`, which
is what `easy_merge`'s four-name tuple unpacking is sensitive to. -/
structure MapRow where
from_table : String
from_column : String
to_table : String
to_column : String
subset_ratio : Option ℚ
deriving DecidableEq, Repr

/-- Candidate primary keys of `CSVStrategy.get_mapping`: every
`(table, column)` whose column is all-unique, paired here with its cell
sequence (the Python code re-indexes the store; carrying the cells avoids
a separate lookup and is identical on a store with unique names). -/
def potentialPrimaryKeys (ts : TableStore) : List (String × String × List (Option PyVal)) :=
ts.flatMap (fun t =>
  (t.2.filter (fun c => isUniqueCol c.2.values)).map (fun c => (t.1, c.1, c.2.values)))

/-- Candidate foreign keys of `CSVStrategy.get_mapping`: every
`(table, column)` of the store. -/
def potentialForeignKeys (ts : TableStore) : List (String × String × List (Option PyVal)) :=
ts.flatMap (fun t => t.2.map (fun c => (t.1, c.1, c.2.values)))

/-- Relationship inference of `CSVStrategy.get_mapping`: for every ordered
pair of a candidate primary key and a candidate foreign key that are not
the same `(table, column)`, emit a mapping row when the subset ratio meets
the 0.95 threshold; the row's `from` side is the foreign candidate, its
`to` side the primary candidate, and it records the exact ratio. -/
def getMapping (ts : TableStore) : List MapRow :=
(potentialPrimaryKeys ts).flatMap (fun pa =>
  (potentialForeignKeys ts).filterMap (fun pb =>
    if (pa.1, pa.2.1) ≠ (pb.1, pb.2.1) then
      let ssr := subsetRatio pa.2.2 pb.2.2
      if ssrThreshold ≤ ssr then
        some ⟨pb.1, pb.2.1, pa.1, pa.2.1, some ssr⟩
      else none
    else none))

/-- One row of the name-based mapping frame of
`CSVStrategy.get_mapping_by_names` (four columns, no confidence). -/
structure NameRow where
from_table : String
from_column : String
to_table : String
to_column : String
deriving DecidableEq, Repr

/-- Column names of a table, in order. -/
def colNames (t : PyTable) : List String :=
t.map (fun c => c.1)

/-- Name-based mapping of `CSVStrategy.get_mapping_by_names`: for every
table, every one of its columns, and every other table that has a column
of the same name, emit the relationship row. -/
def getMappingByNames (ts : TableStore) : List NameRow :=
ts.flatMap (fun k =>
  (colNames k.2).flatMap (fun column =>
    ts.filterMap (fun pk =>
      if column ∈ colNames pk.2 ∧ k.1 ≠ pk.1 then
        some ⟨k.1, column, pk.1, column⟩
      else none)))

/-- Value lookup of a column in the store: first table of that name, then
first column of that name (Python dict and frame indexing; on a store
with unique table names and per-table unique column names this is the
indexing the source performs). -/
def colValues (ts : TableStore) (t c : String) : Option (List (Option PyVal)) :=
match ts.find? (fun e => e.1 = t) with
| none => none
| some e =>
  match e.2.find? (fun col => col.1 = c) with
  | none => none
  | some col => some col.2.values

/-- Lowercasing of a name (Python's `str.lower`), written over the
character list so that it evaluates inside the kernel. -/
def strLower (s : String) : String :=
String.mk (s.data.map Char.toLower)

/-- Substring test (Python's `in` on strings): some suffix of `hay` has
`pat` as a prefix. -/
def containsStr (hay pat : String) : Bool :=
(List.range (hay.data.length + 1)).any (fun i => pat.data.isPrefixOf (hay.data.drop i))

/-- Coordinate keywords of the spatial classifier branch. -/
def coordKeywords : List String :=
["latitude", "longitude", "lat", "long", "lng", "geo", "coordinates"]

/-- Place keywords of the spatial classifier branch. -/
def regionKeywords : List String :=
["address", "city", "state", "zipcode", "zip_code", "postcode", "country", "region", "district", "location"]

/-- Total comparison on embedded Python values (constructor rank first,
then the payload), used only to pick the first element of the sorted
mode list the way `Series.mode()` orders its result. -/
def pvLE : PyVal → PyVal → Bool
| PyVal.pint a, PyVal.pint b => a ≤ b
| PyVal.pint _, _ => true
| PyVal.pnum _, PyVal.pint _ => false
| PyVal.pnum a, PyVal.pnum b => a ≤ b
| PyVal.pnum _, _ => true
| PyVal.pstr _, PyVal.pint _ => false
| PyVal.pstr _, PyVal.pnum _ => false
| PyVal.pstr a, PyVal.pstr b => a ≤ b
| PyVal.pstr _, _ => true
| PyVal.pdt a b, PyVal.pdt c d => a < c ∨ (a = c ∧ b ≤ d)
| PyVal.pdt _ _, _ => false

/-- Count of occurrences of a non-null value among a column's cells. -/
def countVal (vs : List (Option PyVal)) (v : PyVal) : Nat :=
vs.count (some v)

/-- Mode of a column (`Series.mode()[0]`): among the distinct non-null
values of maximal occurrence count, the least in the library's sort
order; `none` when the column has no non-null cell. -/
def modeVal (vs : List (Option PyVal)) : Option PyVal :=
match (distinctNonNull vs).filter
    (fun v => ∀ w ∈ distinctNonNull vs, countVal vs w ≤ countVal vs v) with
| [] => none
| b :: bs => some (bs.foldl (fun acc y => if pvLE y acc then y else acc) b)

/-- Mode frequency `(series == mode).sum()`: occurrences of the mode
value, and 0 when the mode is null (comparison with `None` is
elementwise false). -/
def modeCount (vs : List (Option PyVal)) : Nat :=
match modeVal vs with
| none => 0
| some m => countVal vs m

/-- Column profile row produced by `Database.get_info`, restricted to the
fields the classification logic writes on every branch the claims touch;
the numeric and temporal summary statistics (min/max/mean/range) are not
modelled. -/
structure Profile where
table : String
column : String
count : Nat
unique_count : Nat
duplicated_count : Nat
missing_values : Nat
ptype : String
subtype : String
mode : Option PyVal
mode_count : Option Nat
deriving DecidableEq, Repr

/-- Numeric dtype test (`pd.api.types.is_numeric_dtype`). -/
def isNumericDt (d : DType) : Bool :=
d = DType.intDt ∨ d = DType.floatDt

/-- Whole-number test for a float cell (used by the discrete/continuous
numeric split). -/
def isWholeNum : PyVal → Bool
| PyVal.pnum q => q.den = 1
| _ => true

/-- Date parts of a datetime column's non-null cells. -/
def dateParts (vs : List (Option PyVal)) : List Int :=
(nonNull vs).filterMap (fun v => match v with
  | PyVal.pdt d _ => some d
  | _ => none)

/-- Time parts of a datetime column's non-null cells. -/
def timeParts (vs : List (Option PyVal)) : List Int :=
(nonNull vs).filterMap (fun v => match v with
  | PyVal.pdt _ t => some t
  | _ => none)

/-- Column classifier of `Database.get_info`: the first-match-wins chain
over key membership, uniqueness, key-like name, temporal dtype, spatial
name keywords, numeric dtype, and finally the object-dtype text versus
categorical split; `bestMatch` is the external fuzzy matcher
(`fuzzywuzzy.process.extractOne`) used only by the both-sides key branch.
-/
def classifyColumn (bestMatch : String → List String → String)
    (tableNames : List String) (pks fks : List (String × String))
    (table column : String) (s : Series) : Profile :=
let vs := s.values
let uniqueCount := nuniqueCol vs
let base : Profile :=
  { table := table, column := column, count := vs.length,
    unique_count := uniqueCount,
    duplicated_count := vs.length - vs.dedup.length,
    missing_values := vs.count none,
    ptype := "", subtype := "", mode := none, mode_count := none }
if (table, column) ∈ pks ∧ (table, column) ∈ fks then
  if table = bestMatch column tableNames then
    { base with ptype := "key", subtype := "primary" }
  else
    { base with ptype := "key", subtype := "foreign" }
else if (table, column) ∈ pks then
  { base with ptype := "key", subtype := "primary" }
else if (table, column) ∈ fks then
  { base with ptype := "key", subtype := "foreign" }
else if isUniqueCol vs then
  { base with ptype := "key", subtype := "internal" }
else if containsStr column "_id" then
  { base with ptype := "key", subtype := "unknown" }
else if s.dtype = DType.datetimeDt then
  if (timeParts vs).dedup.length = 1 then
    { base with ptype := "temporal", subtype := "date" }
  else if (dateParts vs).dedup.length = 1 then
    { base with ptype := "temporal", subtype := "time" }
  else
    { base with ptype := "temporal", subtype := "datetime" }
else if coordKeywords.any (fun kw => containsStr (strLower column) kw) then
  { base with ptype := "spatial", subtype := "coordinates" }
else if regionKeywords.any (fun kw => containsStr (strLower column) kw) then
  { base with ptype := "spatial", subtype := "region" }
else if isNumericDt s.dtype then
  if s.dtype = DType.intDt ∨ (s.dtype = DType.floatDt ∧ (nonNull vs).all isWholeNum) then
    { base with ptype := "numeric", subtype := "discrete" }
  else if s.dtype = DType.floatDt then
    { base with ptype := "numeric", subtype := "continuous" }
  else
    { base with ptype := "numeric", subtype := "unknown" }
else if s.dtype = DType.objectDt ∧ 10 < uniqueCount then
  { base with
      ptype := "text", subtype := "free-text",
      mode := modeVal vs, mode_count := some (modeCount vs) }
else if s.dtype = DType.objectDt then
  { base with
      ptype := "categorical", subtype := "nominal",
      mode := modeVal vs, mode_count := some (modeCount vs) }
else
  { base with ptype := "unknown", subtype := "unknown" }

/-- Key-membership lists drawn from the mapping frame: the `from` sides
(foreign keys) and the `to` sides (primary keys) of `Database.get_info`.
-/
def foreignKeyPairs (m : List MapRow) : List (String × String) :=
m.map (fun r => (r.from_table, r.from_column))

/-- Primary-key pair list, the `to` sides of the mapping frame. -/
def primaryKeyPairs (m : List MapRow) : List (String × String) :=
m.map (fun r => (r.to_table, r.to_column))

/-- Profile table of `Database.get_info`: one profile per
`(table, column)` of the store, in store order. -/
def getInfo (bestMatch : String → List String → String)
    (ts : TableStore) (m : List MapRow) : List Profile :=
let tableNames := ts.map (fun t => t.1)
let pks := primaryKeyPairs m
let fks := foreignKeyPairs m
ts.flatMap (fun t => t.2.map (fun c =>
  classifyColumn bestMatch tableNames pks fks t.1 c.1 c.2))

/-- Directed adjacency of the relationship graph: `table_mapping`, the
dictionary from a table to the list of tables it references. -/
abbrev Adj : Type := List (String × List String)

/-- Dictionary lookup in the adjacency (first entry of that key; the
`groupby` construction yields distinct keys). -/
def lookupAdj (g : Adj) (t : String) : Option (List String) :=
match g.find? (fun e => e.1 = t) with
| none => none
| some e => some e.2

/-- Edge relation read off the adjacency: `b` is listed among the tables
referenced by `a`. -/
def adjEdge (g : Adj) (a b : String) : Prop :=
b ∈ (lookupAdj g a).getD []

instance (g : Adj) (a b : String) : Decidable (adjEdge g a b) :=
inferInstanceAs (Decidable (b ∈ (lookupAdj g a).getD []))

/-- Derivation of `table_mapping` from the mapping frame
(`groupby("from_table")["to_table"].apply(list)`): each `from_table`
value maps to the `to_table` values of its rows, in row order. -/
def adjOfMapping (m : List MapRow) : Adj :=
((m.map (fun r => r.from_table)).dedup).map (fun t =>
  (t, (m.filter (fun r => r.from_table = t)).map (fun r => r.to_table)))

/-- Weight bound used as the structural-recursion budget of the path
search: the summed entry sizes of the adjacency rows whose key is not yet
on the current path. -/
def adjWeight (g : Adj) (visited : List String) : Nat :=
(g.filter (fun e => e.1 ∉ visited)).foldr (fun e a => e.2.length + 1 + a) 0

/-- Depth-first simple-path enumeration of
`Database._get_relationship_path`: from the current `paths` prefix, try
each neighbour `next` in order; a neighbour equal to the target closes a
found path, an unvisited neighbour is explored recursively through its
own adjacency entry (a missing entry raises the `KeyError` the Python
dict lookup raises), and a visited non-target neighbour is skipped.  The
`fuel` argument only makes the recursion structural; the budget the top
level supplies is proved sufficient. -/
def dfsPaths (g : Adj) (ending : String) :
    Nat → List String → List String → Except PyErr (List (List String))
| 0, _, _ => Except.error PyErr.fuelOut
| _ + 1, _, [] => Except.ok []
| fuel + 1, paths, next :: rest =>
  if next = ending then
    match dfsPaths g ending fuel paths rest with
    | Except.error e => Except.error e
    | Except.ok more => Except.ok ((paths ++ [next]) :: more)
  else if next ∈ paths then
    dfsPaths g ending fuel paths rest
  else
    match lookupAdj g next with
    | none => Except.error (PyErr.keyError next)
    | some nbrs2 =>
      match dfsPaths g ending fuel (paths ++ [next]) nbrs2 with
      | Except.error e => Except.error e
      | Except.ok sub =>
        match dfsPaths g ending fuel paths rest with
        | Except.error e => Except.error e
        | Except.ok more => Except.ok (sub ++ more)

/-- First shortest element of a path list (`min(all_paths, key=len)`,
which keeps the earlier element on ties); `none` for the empty list, for
which the source returns `None`. -/
def minByLen : List (List String) → Option (List String)
| [] => none
| x :: xs => some (xs.foldl (fun acc y => if y.length < acc.length then y else acc) x)

/-- Recursion budget handed to the search by `getRelationshipPath`:
enough for the whole adjacency plus the initial neighbour list. -/
def pathFuel (g : Adj) (nbrs : List String) : Nat :=
nbrs.length + adjWeight g [] + 1

/-- Shortest-relationship-path search of
`Database._get_relationship_path`: look up the starting table's adjacency
entry (raising `KeyError` when absent), enumerate all simple paths to the
target depth-first, and return the first shortest one, or `None` when no
path was found. -/
def getRelationshipPath (g : Adj) (startT endT : String) :
    Except PyErr (Option (List String)) :=
match lookupAdj g startT with
| none => Except.error (PyErr.keyError startT)
| some nbrs =>
  match dfsPaths g endT (pathFuel g nbrs) [startT] nbrs with
  | Except.error e => Except.error e
  | Except.ok allPaths => Except.ok (minByLen allPaths)

/-- Flattening of the resolved sub-paths into the set of covered tables
(`set(element for sublist in sub_paths for element in sublist)`),
modelled as a first-occurrence-order deduplication; iterating a `None`
sub-path raises the `TypeError` Python raises. -/
def coveredTables (sps : List (Option (List String))) :
    Except PyErr (List String) :=
match sps with
| [] => Except.ok []
| none :: _ => Except.error (PyErr.typeError "NoneType is not iterable")
| some p :: rest =>
  match coveredTables rest with
  | Except.error e => Except.error e
  | Except.ok acc => Except.ok ((p ++ acc).dedup)

/-- Selection of the shortest candidate sub-path
(`min([...], key=len)`): the empty candidate list raises `ValueError`, a
`None` candidate raises the `TypeError` of `len(None)`, and otherwise the
first shortest candidate wins. -/
def minCandidate (cands : List (Option (List String))) :
    Except PyErr (List String) :=
match cands with
| [] => Except.error (PyErr.valueError "min() arg is an empty sequence")
| c :: rest =>
  match c with
  | none => Except.error (PyErr.typeError "object of type NoneType has no len")
  | some p =>
    match rest with
    | [] => Except.ok p
    | _ =>
      match minCandidate rest with
      | Except.error e => Except.error e
      | Except.ok q => Except.ok (if q.length < p.length then q else p)

/-- One iteration of `Database._get_multi_rel_path`'s loop: skip a table
already covered by the resolved sub-paths, otherwise resolve a path to it
from every covered table and append the shortest resolved path. -/
def multiStep (g : Adj) (sps : List (Option (List String))) (t : String) :
    Except PyErr (List (Option (List String))) :=
match coveredTables sps with
| Except.error e => Except.error e
| Except.ok distinct =>
  if t ∈ distinct then Except.ok sps
  else
    match distinct.mapM (fun s => getRelationshipPath g s t) with
    | Except.error e => Except.error e
    | Except.ok cands =>
      match minCandidate cands with
      | Except.error e => Except.error e
      | Except.ok p => Except.ok (sps ++ [some p])

/-- Multi-table path resolution of `Database._get_multi_rel_path`: the
first sub-path links the first two requested tables, and each further
requested table is linked by `multiStep`; fewer than two tables is the
`TypeError` of calling the binary path search with missing arguments. -/
def getMultiRelPath (g : Adj) (tables : List String) :
    Except PyErr (List (Option (List String))) :=
match tables with
| t0 :: t1 :: rest =>
  (match getRelationshipPath g t0 t1 with
   | Except.error e => Except.error e
   | Except.ok p0 => rest.foldlM (multiStep g) [p0])
| _ => Except.error (PyErr.typeError "missing required positional argument")

/-- Mapping rows joining an ordered table pair: the filter
`columns_mapping[from_table == left][to_table == right]`. -/
def rowsBetween (m : List MapRow) (l r : String) : List MapRow :=
m.filter (fun row => row.from_table = l ∧ row.to_table = r)

/-- Resolution of one consecutive pair of a sub-path in
`Database._get_merge_sequence_from_path`: exactly one mapping row is
required; any other match count raises the one generic exception the
source raises, whose message mentions only a missing mapping. -/
def resolveStep (m : List MapRow) (l r : String) : Except PyErr MapRow :=
match rowsBetween m l r with
| [row] => Except.ok row
| _ => Except.error (PyErr.exception ("No mapping found between " ++ l ++ " and " ++ r))

/-- Consecutive pairs `zip(sub_path[:-1], sub_path[1:])` of a sub-path. -/
def consecPairs (p : List String) : List (String × String) :=
p.dropLast.zip p.tail

/-- Merge planning of `Database._get_merge_sequence_from_path`: resolve
every consecutive pair of every sub-path in order; a `None` sub-path
raises the `TypeError` of slicing `None`. -/
def getMergeSequence (m : List MapRow) (mp : List (Option (List String))) :
    Except PyErr (List MapRow) :=
match mp with
| [] => Except.ok []
| none :: _ => Except.error (PyErr.typeError "NoneType is not subscriptable")
| some p :: rest =>
  match (consecPairs p).mapM (fun pr => resolveStep m pr.1 pr.2) with
  | Except.error e => Except.error e
  | Except.ok seqHead =>
    match getMergeSequence m rest with
    | Except.error e => Except.error e
    | Except.ok seqTail => Except.ok (seqHead ++ seqTail)

/-- Row-major view of a table used by the join executor: column names in
order plus the cell rows. -/
structure Frame where
cols : List String
rows : List (List (Option PyVal))
deriving DecidableEq, Repr

/-- Row count of a table (its columns all have this length in a
well-formed store). -/
def numRows (t : PyTable) : Nat :=
match t with
| [] => 0
| c :: _ => c.2.values.length

/-- Transposition of a column-major table into its row-major frame. -/
def frameOfTable (t : PyTable) : Frame :=
⟨colNames t, (List.range (numRows t)).map (fun i => t.map (fun c => (c.2.values.get? i).getD none))⟩

/-- Copy of a frame with every column name given the `"<table>_"` tag
(`df.columns = [f"{table}_" + col for col in df.columns]`). -/
def tagColsFrame (name : String) (f : Frame) : Frame :=
⟨f.cols.map (fun c => name ++ "_" ++ c), f.rows⟩

/-- Inner join `pd.merge(df1, df2, left_on, right_on)`: a missing key
column raises `KeyError`; otherwise every pair of rows with equal key
cells (null keys match null keys, as the library's merge does) is
concatenated, left-major. -/
def innerMerge (df1 df2 : Frame) (lk rk : String) : Except PyErr Frame :=
match df1.cols.findIdx? (fun c => c = lk) with
| none => Except.error (PyErr.keyError lk)
| some i =>
  match df2.cols.findIdx? (fun c => c = rk) with
  | none => Except.error (PyErr.keyError rk)
  | some j =>
    Except.ok ⟨df1.cols ++ df2.cols,
      df1.rows.flatMap (fun r1 =>
        (df2.rows.filter (fun r2 => r2.get? j = r1.get? i)).map (fun r2 => r1 ++ r2))⟩

/-- Projection `df[columns_to_extract]`: a missing requested column
raises `KeyError`; otherwise the requested columns in the requested
order. -/
def projectCols (f : Frame) (cs : List String) : Except PyErr Frame :=
match cs.mapM (fun c => match f.cols.findIdx? (fun x => x = c) with
  | none => Except.error (PyErr.keyError c)
  | some i => Except.ok i) with
| Except.error e => Except.error e
| Except.ok idxs =>
  Except.ok ⟨cs, f.rows.map (fun r => idxs.map (fun i => (r.get? i).getD none))⟩

/-- The database object: the loaded table store and the mapping frame the
strategy produced (the adjacency `table_mapping` is derived from the
mapping frame, as in `Database.__init__`). -/
structure PyDatabase where
tables : TableStore
columns_mapping : List MapRow

/-- Database over a CSV source: the mapping frame comes from the
value-overlap inference. -/
def mkCsvDatabase (ts : TableStore) : PyDatabase :=
⟨ts, getMapping ts⟩

/-- Table lookup `self.tables[name]` with its `KeyError`. -/
def lookupTable (ts : TableStore) (t : String) : Except PyErr PyTable :=
match ts.find? (fun e => e.1 = t) with
| none => Except.error (PyErr.keyError t)
| some e => Except.ok e.2

/-- One iteration of `easy_merge`'s execution loop.  Fetching the loop
item unpacks the mapping row into four names, so a row that still
carries the fifth `subset_ratio` value raises `ValueError` before any
join work; otherwise both tables are fetched and tagged, and the step
joins them (first iteration) or joins the accumulated frame with the
right table (later iterations) on the resolved key columns. -/
def execStep (ts : TableStore) (acc : Option Frame) (row : MapRow) :
    Except PyErr (Option Frame) :=
if row.subset_ratio.isSome then
  Except.error (PyErr.valueError "too many values to unpack")
else
  match lookupTable ts row.from_table with
  | Except.error e => Except.error e
  | Except.ok t1 =>
    match lookupTable ts row.to_table with
    | Except.error e => Except.error e
    | Except.ok t2 =>
      let df1 := tagColsFrame row.from_table (frameOfTable t1)
      let df2 := tagColsFrame row.to_table (frameOfTable t2)
      let lk := row.from_table ++ "_" ++ row.from_column
      let rk := row.to_table ++ "_" ++ row.to_column
      match acc with
      | none =>
        (match innerMerge df1 df2 lk rk with
         | Except.error e => Except.error e
         | Except.ok df => Except.ok (some df))
      | some df =>
        (match innerMerge df df2 lk rk with
         | Except.error e => Except.error e
         | Except.ok df' => Except.ok (some df'))

/-- Requested output columns
`[f"{key}_{val}" for key, val_list in selected.items() for val in val_list]`. -/
def requestedCols (sel : List (String × List String)) : List String :=
sel.flatMap (fun kv => kv.2.map (fun v => kv.1 ++ "_" ++ v))

/-- The merge pipeline `Database.easy_merge`: resolve the multi-table
path over the derived adjacency, plan the merge sequence against the
mapping frame, run the execution loop, and project the requested
columns; an empty execution result (`df` still `None`) raises the
`TypeError` of subscripting `None`. -/
def easyMerge (db : PyDatabase) (sel : List (String × List String)) :
    Except PyErr Frame :=
match getMultiRelPath (adjOfMapping db.columns_mapping) (sel.map (fun kv => kv.1)) with
| Except.error e => Except.error e
| Except.ok mp =>
  match getMergeSequence db.columns_mapping mp with
  | Except.error e => Except.error e
  | Except.ok sq =>
    match sq.foldlM (execStep db.tables) none with
    | Except.error e => Except.error e
    | Except.ok none => Except.error (PyErr.typeError "NoneType is not subscriptable")
    | Except.ok (some df) => projectCols df (requestedCols sel)

/-- Subset ratio exactly as the specification phrases it: the cardinality
of the intersection of the two distinct non-null value sets divided by
the cardinality of the foreign side's distinct non-null value set, 0 when
that set is empty. -/
def ratioSpec (primaryVals foreignVals : List (Option PyVal)) : ℚ :=
if (nonNull foreignVals).toFinset = ∅ then 0
else (((nonNull primaryVals).toFinset ∩ (nonNull foreignVals).toFinset).card : ℚ) /
  ((nonNull foreignVals).toFinset.card : ℚ)

theorem dedup_toFinset_eq (l : List PyVal) : l.dedup.toFinset = l.toFinset := by
ext x
simp [List.mem_dedup]

theorem subsetRatio_eq_ratioSpec (f t : List (Option PyVal)) :
    subsetRatio f t = ratioSpec f t := by
unfold subsetRatio ratioSpec distinctNonNull
have hlen : (nonNull t).dedup.length = (nonNull t).toFinset.card := by
  rw [List.card_toFinset]
have hmatch : ((nonNull f).dedup.filter (fun v => v ∈ (nonNull t).dedup)).length =
    ((nonNull f).toFinset ∩ (nonNull t).toFinset).card := by
  have hnd : ((nonNull f).dedup.filter (fun v => v ∈ (nonNull t).dedup)).Nodup :=
    (List.nodup_dedup _).filter _
  rw [← List.toFinset_card_of_nodup hnd, List.toFinset_filter, dedup_toFinset_eq]
  congr 1
  rw [Finset.filter_congr (q := fun v => v ∈ (nonNull t).toFinset)]
  · exact Finset.filter_mem_eq_inter
  · intro x _
    simp [List.mem_dedup]
by_cases hz : (nonNull t).dedup.length = 0
· have hemp : nonNull t = [] := by
    rwa [List.length_eq_zero, List.dedup_eq_nil] at hz
  simp [hz, hemp]
· have hne : ¬((nonNull t).toFinset = ∅) := by
    rw [← dedup_toFinset_eq]
    intro hcon
    rw [List.toFinset_eq_empty_iff] at hcon
    simp [hcon] at hz
  rw [if_neg hz, if_neg hne, hmatch, hlen, Rat.mkRat_eq_div, Int.cast_natCast]

theorem mem_potentialPrimaryKeys {ts : TableStore} {t c : String}
    {vs : List (Option PyVal)} :
    (t, c, vs) ∈ potentialPrimaryKeys ts ↔
      ∃ cols s, (t, cols) ∈ ts ∧ (c, s) ∈ cols ∧ s.values = vs ∧
        isUniqueCol s.values = true := by
unfold potentialPrimaryKeys
simp only [List.mem_flatMap, List.mem_map, List.mem_filter, Prod.mk.injEq]
constructor
· rintro ⟨⟨tn, cols⟩, hmem, ⟨cn, s⟩, ⟨hc, hu⟩, ht, hcc, hv⟩
  exact ⟨cols, s, by simpa [← ht] using hmem, by simpa [← hcc] using hc, hv, hu⟩
· rintro ⟨cols, s, hmem, hc, hv, hu⟩
  exact ⟨(t, cols), hmem, (c, s), ⟨hc, hu⟩, rfl, rfl, hv⟩

theorem mem_potentialForeignKeys {ts : TableStore} {t c : String}
    {vs : List (Option PyVal)} :
    (t, c, vs) ∈ potentialForeignKeys ts ↔
      ∃ cols s, (t, cols) ∈ ts ∧ (c, s) ∈ cols ∧ s.values = vs := by
unfold potentialForeignKeys
simp only [List.mem_flatMap, List.mem_map, Prod.mk.injEq]
constructor
· rintro ⟨⟨tn, cols⟩, hmem, ⟨cn, s⟩, hc, ht, hcc, hv⟩
  exact ⟨cols, s, by simpa [← ht] using hmem, by simpa [← hcc] using hc, hv⟩
· rintro ⟨cols, s, hmem, hc, hv⟩
  exact ⟨(t, cols), hmem, (c, s), hc, rfl, rfl, hv⟩

/-- C1: on every table store, inference emits a relationship for an
ordered pair (primary candidate, foreign candidate) if and only if the
primary candidate's column is all-unique over its full cell sequence
(nulls included), the two candidates are not the same table/column pair,
and the subset ratio - intersection of the distinct non-null value sets
over the foreign side's distinct non-null value count, 0 on an empty
foreign value set - is at least 0.95; the emitted row has the foreign
candidate on its `from` side, the primary candidate on its `to` side, and
carries the exact ratio as its confidence. -/
theorem inference_emits_iff (ts : TableStore) (r : MapRow) :
    r ∈ getMapping ts ↔
      ∃ (ta ca : String) (sa : Series) (tb cb : String) (sb : Series),
        (∃ colsA, (ta, colsA) ∈ ts ∧ (ca, sa) ∈ colsA) ∧
        (∃ colsB, (tb, colsB) ∈ ts ∧ (cb, sb) ∈ colsB) ∧
        isUniqueCol sa.values = true ∧
        (ta, ca) ≠ (tb, cb) ∧
        ssrThreshold ≤ ratioSpec sa.values sb.values ∧
        r = ⟨tb, cb, ta, ca, some (ratioSpec sa.values sb.values)⟩ := by
unfold getMapping
simp only [List.mem_flatMap, List.mem_filterMap]
constructor
· rintro ⟨⟨ta, ca, va⟩, hpa, ⟨tb, cb, vb⟩, hpb, heq⟩
  rw [mem_potentialPrimaryKeys] at hpa
  obtain ⟨colsA, sa, hAmem, hAc, hAv, hAu⟩ := hpa
  rw [mem_potentialForeignKeys] at hpb
  obtain ⟨colsB, sb, hBmem, hBc, hBv⟩ := hpb
  by_cases hne : (ta, ca) ≠ (tb, cb)
  · rw [if_pos hne] at heq
    by_cases hth : ssrThreshold ≤ subsetRatio va vb
    · rw [if_pos hth] at heq
      refine ⟨ta, ca, sa, tb, cb, sb, ⟨colsA, hAmem, hAc⟩, ⟨colsB, hBmem, hBc⟩, hAu, hne, ?_, ?_⟩
      · rw [← subsetRatio_eq_ratioSpec, hAv, hBv]
        exact hth
      · rw [← subsetRatio_eq_ratioSpec, hAv, hBv]
        exact (Option.some_inj.mp heq).symm
    · rw [if_neg hth] at heq
      exact absurd heq (by simp)
  · rw [if_neg hne] at heq
    exact absurd heq (by simp)
· rintro ⟨ta, ca, sa, tb, cb, sb, ⟨colsA, hAmem, hAc⟩, ⟨colsB, hBmem, hBc⟩, hAu, hne, hth, hr⟩
  refine ⟨(ta, ca, sa.values), ?_, (tb, cb, sb.values), ?_, ?_⟩
  · exact mem_potentialPrimaryKeys.mpr ⟨colsA, sa, hAmem, hAc, rfl, hAu⟩
  · exact mem_potentialForeignKeys.mpr ⟨colsB, sb, hBmem, hBc, rfl⟩
  · rw [if_pos hne, if_pos (by rw [subsetRatio_eq_ratioSpec]; exact hth)]
    rw [hr, subsetRatio_eq_ratioSpec]

theorem mem_getMappingByNames (ts : TableStore) (w : NameRow) :
    w ∈ getMappingByNames ts ↔
      w.from_column = w.to_column ∧ w.from_table ≠ w.to_table ∧
      (∃ t1, (w.from_table, t1) ∈ ts ∧ w.from_column ∈ colNames t1) ∧
      (∃ t2, (w.to_table, t2) ∈ ts ∧ w.from_column ∈ colNames t2) := by
unfold getMappingByNames
simp only [List.mem_flatMap, List.mem_filterMap]
constructor
· rintro ⟨⟨kt, kcols⟩, hk, column, hcol, ⟨pt, pcols⟩, hpk, hif⟩
  split_ifs at hif with hcond
  · obtain ⟨hc1, hc2⟩ := hcond
    obtain ⟨⟩ := Option.some_inj.mp hif
    exact ⟨rfl, hc2, ⟨kcols, hk, hcol⟩, ⟨pcols, hpk, hc1⟩⟩
· rintro ⟨hcc, hne, ⟨t1, ht1, hc1⟩, ⟨t2, ht2, hc2⟩⟩
  refine ⟨(w.from_table, t1), ht1, w.from_column, hc1, (w.to_table, t2), ht2, ?_⟩
  rw [if_pos ⟨hc2, hne⟩]
  cases w
  simp only at hcc
  rw [hcc]

/-- C10: the name-based mapping mode emits a row (T1, c, T2, c) exactly when the
two tables are distinct and both contain a column named c; consequently
every emitted row maps a column name to itself, and the reverse of every
emitted row is also emitted. -/
theorem names_mapping_symmetric (ts : TableStore) (w : NameRow) :
    (w ∈ getMappingByNames ts ↔
      w.from_column = w.to_column ∧ w.from_table ≠ w.to_table ∧
      (∃ t1, (w.from_table, t1) ∈ ts ∧ w.from_column ∈ colNames t1) ∧
      (∃ t2, (w.to_table, t2) ∈ ts ∧ w.from_column ∈ colNames t2)) ∧
    (w ∈ getMappingByNames ts →
      (⟨w.to_table, w.to_column, w.from_table, w.from_column⟩ : NameRow) ∈
        getMappingByNames ts) := by
refine ⟨mem_getMappingByNames ts w, ?_⟩
intro hmem
obtain ⟨hcc, hne, ⟨t1, ht1, hc1⟩, ⟨t2, ht2, hc2⟩⟩ := (mem_getMappingByNames ts w).mp hmem
refine (mem_getMappingByNames ts _).mpr ⟨hcc.symm, hne.symm, ?_, ?_⟩
· refine ⟨t2, ht2, ?_⟩
  show w.to_column ∈ colNames t2
  rwa [hcc] at hc2
· refine ⟨t1, ht1, ?_⟩
  show w.to_column ∈ colNames t1
  rwa [hcc] at hc1

theorem getMergeSequence_single_pair (m : List MapRow) (l r : String) :
    getMergeSequence m [some [l, r]] =
      match resolveStep m l r with
      | Except.ok row => Except.ok [row]
      | Except.error e => Except.error e := by
have hcp : consecPairs [l, r] = [(l, r)] := rfl
cases hres : resolveStep m l r with
| ok row =>
  simp [getMergeSequence, hcp, List.mapM, List.mapM.loop, hres]
| error e =>
  simp [getMergeSequence, hcp, List.mapM, List.mapM.loop, hres]

/-- Two inferred relationships between the same ordered table pair, the
ambiguity scenario of the planner. -/
def ambMapping : List MapRow :=
[⟨"a", "x", "b", "x", none⟩, ⟨"a", "y", "b", "y", none⟩]

/-- C2 counterexample: with two mapping rows between the ordered pair
(a, b), planning one step from a to b raises the very same generic
"No mapping found" exception that the zero-match case raises - not a
distinct ambiguous-mapping error carrying the two candidates. -/
theorem merge_planning_ambiguity_counterexample :
    getMergeSequence ambMapping [some ["a", "b"]] =
      Except.error (PyErr.exception "No mapping found between a and b") ∧
    getMergeSequence ([] : List MapRow) [some ["a", "b"]] =
      Except.error (PyErr.exception "No mapping found between a and b") :=
⟨rfl, rfl⟩

/-- C2 (amended): along a planned sub-path step from left table l to
right table r, exactly one matching relationship row is used as the join
step, and any other match count - zero or several - raises one and the
same generic exception whose message names only a missing mapping; the
multiplicity of matches is not reported. -/
theorem merge_planning_match_dispatch (m : List MapRow) (l r : String) :
    ((rowsBetween m l r).length = 1 →
      getMergeSequence m [some [l, r]] = Except.ok (rowsBetween m l r)) ∧
    ((rowsBetween m l r).length ≠ 1 →
      getMergeSequence m [some [l, r]] =
        Except.error (PyErr.exception ("No mapping found between " ++ l ++ " and " ++ r))) := by
constructor
· intro h1
  obtain ⟨row, hrow⟩ : ∃ row, rowsBetween m l r = [row] := by
    cases hx : rowsBetween m l r with
    | nil => rw [hx] at h1; simp at h1
    | cons a tl =>
      cases tl with
      | nil => exact ⟨a, rfl⟩
      | cons b tl2 => rw [hx] at h1; simp at h1
  rw [getMergeSequence_single_pair, hrow]
  unfold resolveStep
  rw [hrow]
· intro h1
  have hres : resolveStep m l r =
      Except.error (PyErr.exception ("No mapping found between " ++ l ++ " and " ++ r)) := by
    unfold resolveStep
    cases hx : rowsBetween m l r with
    | nil => rfl
    | cons a tl =>
      cases tl with
      | nil => rw [hx] at h1; simp at h1
      | cons b tl2 => rfl
  rw [getMergeSequence_single_pair, hres]

theorem foldl_pvLE_mem (b : PyVal) (bs : List PyVal) :
    bs.foldl (fun acc y => if pvLE y acc then y else acc) b ∈ b :: bs := by
induction bs generalizing b with
| nil => simp
| cons x xs ih =>
  simp only [List.foldl_cons]
  by_cases hc : pvLE x b
  · rw [if_pos hc]
    have h := ih x
    rw [List.mem_cons] at h ⊢
    rcases h with h | h
    · right
      rw [List.mem_cons]
      left
      exact h
    · right
      rw [List.mem_cons]
      right
      exact h
  · rw [if_neg hc]
    have h := ih b
    rw [List.mem_cons] at h ⊢
    rcases h with h | h
    · left
      exact h
    · right
      rw [List.mem_cons]
      right
      exact h

theorem exists_max_count (f : PyVal → Nat) (l : List PyVal) (h : l ≠ []) :
    ∃ y ∈ l, ∀ x ∈ l, f x ≤ f y := by
induction l with
| nil => exact absurd rfl h
| cons a tl ih =>
  cases tl with
  | nil =>
    refine ⟨a, by simp, ?_⟩
    intro x hx
    simp at hx
    rw [hx]
  | cons b tl2 =>
    obtain ⟨y, hy, hmax⟩ := ih (by simp)
    by_cases hcmp : f y ≤ f a
    · refine ⟨a, by simp, ?_⟩
      intro x hx
      rcases List.mem_cons.mp hx with hxa | hxt
      · rw [hxa]
      · exact le_trans (hmax x hxt) hcmp
    · refine ⟨y, List.mem_cons_of_mem a hy, ?_⟩
      intro x hx
      rcases List.mem_cons.mp hx with hxa | hxt
      · rw [hxa]
        exact le_of_not_le hcmp
      · exact hmax x hxt

theorem modeVal_spec (vs : List (Option PyVal)) (m : PyVal)
    (h : modeVal vs = some m) :
    m ∈ nonNull vs ∧ ∀ v ∈ nonNull vs, countVal vs v ≤ countVal vs m := by
unfold modeVal at h
cases hbe : (distinctNonNull vs).filter
    (fun v => ∀ w ∈ distinctNonNull vs, countVal vs w ≤ countVal vs v) with
| nil =>
  rw [hbe] at h
  exact absurd h (by simp)
| cons b bs =>
  rw [hbe] at h
  have hm : m ∈ b :: bs := by
    rw [← Option.some_inj.mp h]
    exact foldl_pvLE_mem b bs
  rw [← hbe] at hm
  have hmf := List.mem_filter.mp hm
  have hbound := of_decide_eq_true hmf.2
  have hcand : m ∈ nonNull vs := by
    have hmd := hmf.1
    unfold distinctNonNull at hmd
    exact List.mem_dedup.mp hmd
  refine ⟨hcand, ?_⟩
  intro v hv
  exact hbound v (List.mem_dedup.mpr hv)

theorem modeVal_isSome (vs : List (Option PyVal)) (h : nonNull vs ≠ []) :
    (modeVal vs).isSome = true := by
have hc : distinctNonNull vs ≠ [] := by
  unfold distinctNonNull
  intro hcon
  exact h ((List.dedup_eq_nil _).mp hcon)
obtain ⟨y, hy, hmax⟩ := exists_max_count (countVal vs) (distinctNonNull vs) hc
have hyb : y ∈ (distinctNonNull vs).filter
    (fun v => ∀ w ∈ distinctNonNull vs, countVal vs w ≤ countVal vs v) := by
  rw [List.mem_filter]
  exact ⟨hy, decide_eq_true (by intro w hw; exact hmax w hw)⟩
unfold modeVal
cases hbe : (distinctNonNull vs).filter
    (fun v => ∀ w ∈ distinctNonNull vs, countVal vs w ≤ countVal vs v) with
| nil =>
  rw [hbe] at hyb
  simp at hyb
| cons b bs =>
  simp

/-- C9: a string-typed (object-dtype) column that no earlier rule of the
classification chain matches - it is on neither side of the relationship
set, is not all-unique, has no key-like name, and matches no spatial name
keyword (the temporal and numeric branches cannot fire on an object
dtype) - is classified as text/free-text when it has more than 10
distinct non-null values and as categorical/nominal when it has at most
10, and in both cases the profile records the mode - a most frequent
non-null value, which exists whenever any non-null cell does - together
with that value's occurrence count. -/
theorem classifier_text_categorical (bestMatch : String → List String → String)
    (tableNames : List String) (pks fks : List (String × String))
    (table column : String) (s : Series)
    (hdt : s.dtype = DType.objectDt)
    (hpk : (table, column) ∉ pks)
    (hfk : (table, column) ∉ fks)
    (huniq : isUniqueCol s.values = false)
    (hid : containsStr column "_id" = false)
    (hcoord : coordKeywords.any (fun kw => containsStr (strLower column) kw) = false)
    (hregion : regionKeywords.any (fun kw => containsStr (strLower column) kw) = false) :
    (10 < nuniqueCol s.values →
      (classifyColumn bestMatch tableNames pks fks table column s).ptype = "text" ∧
      (classifyColumn bestMatch tableNames pks fks table column s).subtype = "free-text") ∧
    (nuniqueCol s.values ≤ 10 →
      (classifyColumn bestMatch tableNames pks fks table column s).ptype = "categorical" ∧
      (classifyColumn bestMatch tableNames pks fks table column s).subtype = "nominal") ∧
    (classifyColumn bestMatch tableNames pks fks table column s).mode = modeVal s.values ∧
    (classifyColumn bestMatch tableNames pks fks table column s).mode_count =
      some (modeCount s.values) ∧
    (∀ m, modeVal s.values = some m →
      m ∈ nonNull s.values ∧ modeCount s.values = countVal s.values m ∧
      ∀ v ∈ nonNull s.values, countVal s.values v ≤ countVal s.values m) ∧
    (nonNull s.values ≠ [] → (modeVal s.values).isSome = true) := by
have hclass : classifyColumn bestMatch tableNames pks fks table column s =
    (if 10 < nuniqueCol s.values then
      ({ table := table, column := column, count := s.values.length,
         unique_count := nuniqueCol s.values,
         duplicated_count := s.values.length - s.values.dedup.length,
         missing_values := s.values.count none,
         ptype := "text", subtype := "free-text",
         mode := modeVal s.values, mode_count := some (modeCount s.values) } : Profile)
    else
      { table := table, column := column, count := s.values.length,
        unique_count := nuniqueCol s.values,
        duplicated_count := s.values.length - s.values.dedup.length,
        missing_values := s.values.count none,
        ptype := "categorical", subtype := "nominal",
        mode := modeVal s.values, mode_count := some (modeCount s.values) }) := by
  unfold classifyColumn
  rw [if_neg (fun hand => hpk hand.1), if_neg hpk, if_neg hfk,
    if_neg (by rw [huniq]; exact Bool.false_ne_true),
    if_neg (by rw [hid]; exact Bool.false_ne_true),
    if_neg (by rw [hdt]; intro hcon; exact absurd hcon (by decide)),
    if_neg (by rw [hcoord]; exact Bool.false_ne_true),
    if_neg (by rw [hregion]; exact Bool.false_ne_true),
    if_neg (by rw [hdt]; intro hcon; exact absurd hcon (by decide))]
  by_cases h10 : 10 < nuniqueCol s.values
  · rw [if_pos ⟨hdt, h10⟩, if_pos h10]
  · rw [if_neg (fun hand => h10 hand.2), if_pos hdt, if_neg h10]
refine ⟨?_, ?_, ?_, ?_, ?_, modeVal_isSome s.values⟩
· intro h10
  rw [hclass, if_pos h10]
  exact ⟨rfl, rfl⟩
· intro h10
  rw [hclass, if_neg (by exact fun hcon => absurd hcon (Nat.not_lt.mpr h10))]
  exact ⟨rfl, rfl⟩
· by_cases h10 : 10 < nuniqueCol s.values
  · rw [hclass, if_pos h10]
  · rw [hclass, if_neg h10]
· by_cases h10 : 10 < nuniqueCol s.values
  · rw [hclass, if_pos h10]
  · rw [hclass, if_neg h10]
· intro m hm
  obtain ⟨hmem, hbound⟩ := modeVal_spec s.values m hm
  refine ⟨hmem, ?_, hbound⟩
  unfold modeCount
  rw [hm]

theorem foldl_minLen_mem (x : List String) (xs : List (List String)) :
    xs.foldl (fun acc y => if y.length < acc.length then y else acc) x ∈ x :: xs := by
induction xs generalizing x with
| nil => simp
| cons y ys ih =>
  simp only [List.foldl_cons]
  by_cases hc : y.length < x.length
  · rw [if_pos hc]
    have h := ih y
    rw [List.mem_cons] at h ⊢
    rcases h with h | h
    · right
      rw [List.mem_cons]
      left
      exact h
    · right
      rw [List.mem_cons]
      right
      exact h
  · rw [if_neg hc]
    have h := ih x
    rw [List.mem_cons] at h ⊢
    rcases h with h | h
    · left
      exact h
    · right
      rw [List.mem_cons]
      right
      exact h

theorem foldl_minLen_le (x : List String) (xs : List (List String)) :
    (xs.foldl (fun acc y => if y.length < acc.length then y else acc) x).length ≤ x.length ∧
    ∀ q ∈ xs, (xs.foldl (fun acc y => if y.length < acc.length then y else acc) x).length ≤ q.length := by
induction xs generalizing x with
| nil => simp
| cons y ys ih =>
  simp only [List.foldl_cons]
  by_cases hc : y.length < x.length
  · rw [if_pos hc]
    obtain ⟨h1, h2⟩ := ih y
    refine ⟨le_trans h1 (le_of_lt hc), ?_⟩
    intro q hq
    rcases List.mem_cons.mp hq with hq | hq
    · rw [hq]
      exact h1
    · exact h2 q hq
  · rw [if_neg hc]
    obtain ⟨h1, h2⟩ := ih x
    refine ⟨h1, ?_⟩
    intro q hq
    rcases List.mem_cons.mp hq with hq | hq
    · rw [hq]
      exact le_trans h1 (Nat.le_of_not_lt hc)
    · exact h2 q hq

theorem minByLen_mem (l : List (List String)) (p : List String)
    (h : minByLen l = some p) : p ∈ l := by
cases l with
| nil => exact absurd h (by simp [minByLen])
| cons x xs =>
  simp only [minByLen, Option.some_inj] at h
  rw [← h]
  exact foldl_minLen_mem x xs

theorem minByLen_le (l : List (List String)) (p : List String)
    (h : minByLen l = some p) : ∀ q ∈ l, p.length ≤ q.length := by
cases l with
| nil => exact absurd h (by simp [minByLen])
| cons x xs =>
  simp only [minByLen, Option.some_inj] at h
  rw [← h]
  intro q hq
  rcases List.mem_cons.mp hq with hq | hq
  · rw [hq]
    exact (foldl_minLen_le x xs).1
  · exact (foldl_minLen_le x xs).2 q hq

theorem minByLen_ok_of_ne_nil (l : List (List String)) (h : l ≠ []) :
    ∃ p, minByLen l = some p := by
cases l with
| nil => exact absurd rfl h
| cons x xs => exact ⟨_, rfl⟩

theorem dfsPaths_length_lt (g : Adj) (ending : String) :
    ∀ (fuel : Nat) (paths nbrs : List String) (l : List (List String)),
      dfsPaths g ending fuel paths nbrs = Except.ok l →
      ∀ q ∈ l, paths.length < q.length := by
intro fuel
induction fuel with
| zero =>
  intro paths nbrs l h
  exact absurd h (by simp [dfsPaths])
| succ n ih =>
  intro paths nbrs l h
  cases nbrs with
  | nil =>
    simp only [dfsPaths] at h
    obtain ⟨⟩ := Except.ok.inj h
    intro q hq
    simp at hq
  | cons next rest =>
    simp only [dfsPaths] at h
    by_cases hne : next = ending
    · rw [if_pos hne] at h
      cases hrec : dfsPaths g ending n paths rest with
      | error e =>
        rw [hrec] at h
        exact absurd h (by simp)
      | ok more =>
        rw [hrec] at h
        obtain ⟨⟩ := Except.ok.inj h
        intro q hq
        rcases List.mem_cons.mp hq with hq | hq
        · rw [hq, List.length_append]
          simp
        · exact ih paths rest more hrec q hq
    · rw [if_neg hne] at h
      by_cases hvis : next ∈ paths
      · rw [if_pos hvis] at h
        exact ih paths rest l h
      · rw [if_neg hvis] at h
        cases hlk : lookupAdj g next with
        | none =>
          rw [hlk] at h
          exact absurd h (by simp)
        | some nbrs2 =>
          rw [hlk] at h
          dsimp only at h
          cases hsub : dfsPaths g ending n (paths ++ [next]) nbrs2 with
          | error e =>
            rw [hsub] at h
            exact absurd h (by simp)
          | ok sub =>
            rw [hsub] at h
            cases hmore : dfsPaths g ending n paths rest with
            | error e =>
              rw [hmore] at h
              exact absurd h (by simp)
            | ok more =>
              rw [hmore] at h
              obtain ⟨⟩ := Except.ok.inj h
              intro q hq
              rcases List.mem_append.mp hq with hq | hq
              · have hlt := ih (paths ++ [next]) nbrs2 sub hsub q hq
                rw [List.length_append] at hlt
                omega
              · exact ih paths rest more hmore q hq

/-- Relationship graph with one edge a → b; b has no adjacency entry, as
happens for any table without outgoing relationships. -/
def gDeadEnd : Adj := [("a", ["b"])]

/-- Graph where a points to b and then c, with b a dead end, although a
simple path from a to c exists. -/
def gFork : Adj := [("a", ["b", "c"])]

/-- Two-table cycle a → b → a. -/
def gCycle : Adj := [("a", ["b"]), ("b", ["a"])]

/-- Line graph over a, b, c with only the edges a ↔ b and b ↔ c. -/
def gLine : Adj := [("a", ["b"]), ("b", ["a", "c"]), ("c", ["b"])]

/-- C3: evaluating the path search at a graph in which the reachable
table b has no outgoing adjacency entry shows the code raising the
`KeyError` of `self.table_mapping[starting_table]` instead of reporting
not-found: the search for a path from a to c crashes on b. -/
theorem findPath_dead_end_keyerror :
    getRelationshipPath gDeadEnd "a" "c" = Except.error (PyErr.keyError "b") := rfl

/-- C5 (amended): a start-equals-end search never returns the trivial
single-table path; every path it can return has at least two entries,
because the search only records paths that extend the current prefix by
a neighbour reaching the target (it searches for a cycle back to the
start, not for the empty path). -/
theorem findPath_self_not_trivial (g : Adj) (x : String) (p : List String)
    (h : getRelationshipPath g x x = Except.ok (some p)) : 2 ≤ p.length := by
unfold getRelationshipPath at h
cases hlk : lookupAdj g x with
| none =>
  rw [hlk] at h
  exact absurd h (by simp)
| some nbrs =>
  rw [hlk] at h
  dsimp only at h
  cases hdfs : dfsPaths g x (pathFuel g nbrs) [x] nbrs with
  | error e =>
    rw [hdfs] at h
    exact absurd h (by simp)
  | ok l =>
    rw [hdfs] at h
    dsimp only at h
    have hp : minByLen l = some p := Except.ok.inj h
    have hlt := dfsPaths_length_lt g x (pathFuel g nbrs) [x] nbrs l hdfs p (minByLen_mem l p hp)
    simpa using hlt

/-- C5 counterexample: on the two-table cycle, the start-equals-end
search findPath(a, a) returns the cycle path [a, b, a], not the trivial
single-table path [a] the claim requires. -/
theorem findPath_self_counterexample :
    getRelationshipPath gCycle "a" "a" = Except.ok (some ["a", "b", "a"]) ∧
    (["a", "b", "a"] : List String) ≠ ["a"] :=
⟨rfl, by decide⟩

/-- Witness for the amended C5 theorem at the two-table cycle. -/
theorem findPath_self_not_trivial_witness :
    getRelationshipPath gCycle "a" "a" = Except.ok (some ["a", "b", "a"]) ∧
    2 ≤ (["a", "b", "a"] : List String).length :=
⟨rfl, findPath_self_not_trivial gCycle "a" ["a", "b", "a"] rfl⟩

theorem adjWeight_cons (e : String × List String) (g : Adj) (vis : List String) :
    adjWeight (e :: g) vis =
      (if e.1 ∉ vis then e.2.length + 1 else 0) + adjWeight g vis := by
unfold adjWeight
by_cases hm : e.1 ∉ vis
· rw [if_pos hm, List.filter_cons_of_pos (by simpa using hm)]
  simp [List.foldr_cons]
· rw [if_neg hm, List.filter_cons_of_neg (by simpa using hm)]
  simp

theorem adjWeight_concat_le (g : Adj) (vis : List String) (t : String) :
    adjWeight g (vis ++ [t]) ≤ adjWeight g vis := by
induction g with
| nil => simp [adjWeight]
| cons e g' ih =>
  rw [adjWeight_cons, adjWeight_cons]
  have himp : e.1 ∉ vis ++ [t] → e.1 ∉ vis := by
    intro h hc
    exact h (List.mem_append_left _ hc)
  by_cases h1 : e.1 ∉ vis ++ [t]
  · rw [if_pos h1, if_pos (himp h1)]
    omega
  · rw [if_neg h1]
    by_cases h2 : e.1 ∉ vis
    · rw [if_pos h2]
      omega
    · rw [if_neg h2]
      omega

theorem adjWeight_drop (g : Adj) (vis : List String) (t : String)
    (ns : List String) (hlk : lookupAdj g t = some ns) (hvis : t ∉ vis) :
    ns.length + 1 + adjWeight g (vis ++ [t]) ≤ adjWeight g vis := by
induction g with
| nil => exact absurd hlk (by simp [lookupAdj])
| cons e g' ih =>
  rw [adjWeight_cons, adjWeight_cons]
  by_cases het : e.1 = t
  · have hns : e.2 = ns := by
      unfold lookupAdj at hlk
      rw [List.find?_cons_of_pos _ (by simpa using het)] at hlk
      exact Option.some_inj.mp (by simpa using hlk)
    have hm1 : ¬(e.1 ∉ vis ++ [t]) := by
      intro hc
      exact hc (List.mem_append_right _ (by simp [het]))
    rw [if_neg hm1, if_pos (by rw [het]; exact hvis), hns]
    have := adjWeight_concat_le g' vis t
    omega
  · have hlk' : lookupAdj g' t = some ns := by
      unfold lookupAdj at hlk ⊢
      rw [List.find?_cons_of_neg _ (by simpa using het)] at hlk
      exact hlk
    have hiff : (e.1 ∉ vis ++ [t]) ↔ (e.1 ∉ vis) := by
      constructor
      · intro h hc
        exact h (List.mem_append_left _ hc)
      · intro h hc
        rcases List.mem_append.mp hc with hc | hc
        · exact h hc
        · simp at hc
          exact het hc
    have hih := ih hlk'
    by_cases h2 : e.1 ∉ vis
    · rw [if_pos (hiff.mpr h2), if_pos h2]
      omega
    · rw [if_neg (fun hc => h2 (hiff.mp hc)), if_neg h2]
      omega

theorem dfsPaths_no_fuelOut (g : Adj) (ending : String) :
    ∀ (fuel : Nat) (paths nbrs : List String),
      nbrs.length + adjWeight g paths + 1 ≤ fuel →
      dfsPaths g ending fuel paths nbrs ≠ Except.error PyErr.fuelOut := by
intro fuel
induction fuel with
| zero =>
  intro paths nbrs hb
  omega
| succ n ih =>
  intro paths nbrs hb
  cases nbrs with
  | nil => simp [dfsPaths]
  | cons next rest =>
    simp only [dfsPaths]
    have hrest : rest.length + adjWeight g paths + 1 ≤ n := by
      simp only [List.length_cons] at hb
      omega
    by_cases hne : next = ending
    · rw [if_pos hne]
      cases hrec : dfsPaths g ending n paths rest with
      | error e =>
        intro hcon
        have he : e = PyErr.fuelOut := by
          have := Except.error.inj hcon
          exact this
        rw [he] at hrec
        exact ih paths rest hrest hrec
      | ok more => simp
    · rw [if_neg hne]
      by_cases hvis : next ∈ paths
      · rw [if_pos hvis]
        exact ih paths rest hrest
      · rw [if_neg hvis]
        cases hlk : lookupAdj g next with
        | none => simp
        | some nbrs2 =>
          dsimp only
          have hsubb : nbrs2.length + adjWeight g (paths ++ [next]) + 1 ≤ n := by
            have hdrop := adjWeight_drop g paths next nbrs2 hlk hvis
            omega
          cases hsub : dfsPaths g ending n (paths ++ [next]) nbrs2 with
          | error e =>
            intro hcon
            have he : e = PyErr.fuelOut := Except.error.inj hcon
            rw [he] at hsub
            exact ih (paths ++ [next]) nbrs2 hsubb hsub
          | ok sub =>
            cases hmore : dfsPaths g ending n paths rest with
            | error e =>
              intro hcon
              have he : e = PyErr.fuelOut := Except.error.inj hcon
              rw [he] at hmore
              exact ih paths rest hrest hmore
            | ok more => simp

/-- Termination of the embedded path search: the recursion budget the top
level supplies is always sufficient, so the search never reports budget
exhaustion - the structural recursion faithfully models the terminating
Python recursion (which never revisits a table within one path). -/
theorem getRelationshipPath_no_fuelOut (g : Adj) (s e : String) :
    getRelationshipPath g s e ≠ Except.error PyErr.fuelOut := by
unfold getRelationshipPath
cases hlk : lookupAdj g s with
| none => simp
| some nbrs =>
  dsimp only
  cases hdfs : dfsPaths g e (pathFuel g nbrs) [s] nbrs with
  | error err =>
    intro hcon
    have he : err = PyErr.fuelOut := Except.error.inj hcon
    rw [he] at hdfs
    have hb : nbrs.length + adjWeight g [s] + 1 ≤ pathFuel g nbrs := by
      unfold pathFuel
      have : adjWeight g ([] ++ [s]) ≤ adjWeight g [] := adjWeight_concat_le g [] s
      simp at this
      omega
    exact dfsPaths_no_fuelOut g e (pathFuel g nbrs) [s] nbrs hb hdfs
  | ok l => simp

/-- Simple path through the relationship graph: starts at s, ends at e,
visits no table twice, and every consecutive pair is a graph edge. -/
def IsSimplePath (g : Adj) (s e : String) (p : List String) : Prop :=
p.head? = some s ∧ p.getLast? = some e ∧ p.Nodup ∧ List.Chain' (adjEdge g) p

theorem dfsPaths_sound (g : Adj) (ending : String) :
    ∀ (fuel : Nat) (paths nbrs : List String) (lastp : String) (l : List (List String)),
      dfsPaths g ending fuel paths nbrs = Except.ok l →
      paths ≠ [] →
      paths.Nodup →
      ending ∉ paths →
      List.Chain' (adjEdge g) paths →
      paths.getLast? = some lastp →
      (∀ x ∈ nbrs, adjEdge g lastp x) →
      ∀ q ∈ l,
        q.head? = paths.head? ∧ q.getLast? = some ending ∧ q.Nodup ∧
        List.Chain' (adjEdge g) q := by
intro fuel
induction fuel with
| zero =>
  intro paths nbrs lastp l h
  exact absurd h (by simp [dfsPaths])
| succ n ih =>
  intro paths nbrs lastp l h hne0 hnd hend hch hlast hnb
  cases nbrs with
  | nil =>
    simp only [dfsPaths] at h
    obtain ⟨⟩ := Except.ok.inj h
    intro q hq
    simp at hq
  | cons next rest =>
    simp only [dfsPaths] at h
    have hnbrest : ∀ x ∈ rest, adjEdge g lastp x := by
      intro x hx
      exact hnb x (List.mem_cons_of_mem next hx)
    by_cases hnexte : next = ending
    · rw [if_pos hnexte] at h
      cases hrec : dfsPaths g ending n paths rest with
      | error e =>
        rw [hrec] at h
        exact absurd h (by simp)
      | ok more =>
        rw [hrec] at h
        obtain ⟨⟩ := Except.ok.inj h
        intro q hq
        rcases List.mem_cons.mp hq with hq | hq
        · subst hq
          refine ⟨?_, ?_, ?_, ?_⟩
          · cases paths with
            | nil => exact absurd rfl hne0
            | cons p0 ptl => rfl
          · rw [← hnexte]
            exact List.getLast?_concat _
          · rw [List.nodup_append]
            refine ⟨hnd, List.nodup_singleton _, ?_⟩
            intro a ha hb
            simp at hb
            rw [hb, hnexte] at ha
            exact hend ha
          · rw [List.chain'_append]
            refine ⟨hch, List.chain'_singleton _, ?_⟩
            intro x hx y hy
            rw [hlast] at hx
            simp at hx hy
            rw [← hx, ← hy]
            exact hnb next (List.mem_cons_self next rest)
        · exact ih paths rest lastp more hrec hne0 hnd hend hch hlast hnbrest q hq
    · rw [if_neg hnexte] at h
      by_cases hvis : next ∈ paths
      · rw [if_pos hvis] at h
        exact ih paths rest lastp l h hne0 hnd hend hch hlast hnbrest
      · rw [if_neg hvis] at h
        cases hlk : lookupAdj g next with
        | none =>
          rw [hlk] at h
          exact absurd h (by simp)
        | some nbrs2 =>
          rw [hlk] at h
          dsimp only at h
          cases hsub : dfsPaths g ending n (paths ++ [next]) nbrs2 with
          | error e =>
            rw [hsub] at h
            exact absurd h (by simp)
          | ok sub =>
            rw [hsub] at h
            cases hmore : dfsPaths g ending n paths rest with
            | error e =>
              rw [hmore] at h
              exact absurd h (by simp)
            | ok more =>
              rw [hmore] at h
              obtain ⟨⟩ := Except.ok.inj h
              intro q hq
              rcases List.mem_append.mp hq with hq | hq
              · have hsnd : (paths ++ [next]).Nodup := by
                  rw [List.nodup_append]
                  refine ⟨hnd, List.nodup_singleton _, ?_⟩
                  intro a ha hb
                  simp at hb
                  rw [hb] at ha
                  exact hvis ha
                have hsend : ending ∉ paths ++ [next] := by
                  intro hc
                  rcases List.mem_append.mp hc with hc | hc
                  · exact hend hc
                  · simp at hc
                    exact hnexte hc.symm
                have hsch : List.Chain' (adjEdge g) (paths ++ [next]) := by
                  rw [List.chain'_append]
                  refine ⟨hch, List.chain'_singleton _, ?_⟩
                  intro x hx y hy
                  rw [hlast] at hx
                  simp at hx hy
                  rw [← hx, ← hy]
                  exact hnb next (List.mem_cons_self next rest)
                have hslast : (paths ++ [next]).getLast? = some next :=
                  List.getLast?_concat _
                have hsnb : ∀ x ∈ nbrs2, adjEdge g next x := by
                  intro x hx
                  unfold adjEdge
                  rw [hlk]
                  exact hx
                have hres := ih (paths ++ [next]) nbrs2 next sub hsub
                  (by simp) hsnd hsend hsch hslast hsnb q hq
                refine ⟨?_, hres.2.1, hres.2.2.1, hres.2.2.2⟩
                rw [hres.1]
                cases paths with
                | nil => exact absurd rfl hne0
                | cons p0 ptl => rfl
              · exact ih paths rest lastp more hmore hne0 hnd hend hch hlast hnbrest q hq

theorem dfsPaths_complete (g : Adj) (ending : String) :
    ∀ (fuel : Nat) (paths nbrs : List String) (l : List (List String))
      (n : String) (ctl : List String),
      dfsPaths g ending fuel paths nbrs = Except.ok l →
      n ∈ nbrs →
      List.Chain' (adjEdge g) (n :: ctl) →
      (n :: ctl).getLast? = some ending →
      (n :: ctl).Nodup →
      (∀ x ∈ (n :: ctl).dropLast, x ∉ paths ∧ x ≠ ending) →
      (paths ++ n :: ctl) ∈ l := by
intro fuel
induction fuel with
| zero =>
  intro paths nbrs l n ctl h
  exact absurd h (by simp [dfsPaths])
| succ fl ih =>
  intro paths nbrs l n ctl h hn hch hlastc hnd hfresh
  cases nbrs with
  | nil => simp at hn
  | cons next rest =>
    simp only [dfsPaths] at h
    by_cases hnexte : next = ending
    · rw [if_pos hnexte] at h
      cases hrec : dfsPaths g ending fl paths rest with
      | error e =>
        rw [hrec] at h
        exact absurd h (by simp)
      | ok more =>
        rw [hrec] at h
        obtain ⟨⟩ := Except.ok.inj h
        by_cases hnn : n = next
        · have hctl : ctl = [] := by
            cases hc : ctl with
            | nil => rfl
            | cons c2 ctl2 =>
              exfalso
              have hmemdl : n ∈ (n :: ctl).dropLast := by
                rw [hc, List.dropLast_cons₂]
                exact List.mem_cons_self _ _
              have := (hfresh n hmemdl).2
              rw [hnn, hnexte] at this
              exact this rfl
          rw [hctl, hnn]
          exact List.mem_cons_self _ _
        · have hnrest : n ∈ rest := by
            rcases List.mem_cons.mp hn with hc | hc
            · exact absurd hc hnn
            · exact hc
          exact List.mem_cons_of_mem _
            (ih paths rest more n ctl hrec hnrest hch hlastc hnd hfresh)
    · rw [if_neg hnexte] at h
      have hctlne : n = next → ctl ≠ [] := by
        intro hnn hc
        rw [hc] at hlastc
        simp at hlastc
        rw [← hnn] at hnexte
        exact hnexte hlastc
      by_cases hvis : next ∈ paths
      · rw [if_pos hvis] at h
        by_cases hnn : n = next
        · exfalso
          have hctl := hctlne hnn
          have hmemdl : n ∈ (n :: ctl).dropLast := by
            cases hc : ctl with
            | nil => exact absurd hc hctl
            | cons c2 ctl2 =>
              rw [List.dropLast_cons₂]
              exact List.mem_cons_self _ _
          have := (hfresh n hmemdl).1
          rw [hnn] at this
          exact this hvis
        · have hnrest : n ∈ rest := by
            rcases List.mem_cons.mp hn with hc | hc
            · exact absurd hc hnn
            · exact hc
          exact ih paths rest l n ctl h hnrest hch hlastc hnd hfresh
      · rw [if_neg hvis] at h
        cases hlk : lookupAdj g next with
        | none =>
          rw [hlk] at h
          exact absurd h (by simp)
        | some nbrs2 =>
          rw [hlk] at h
          dsimp only at h
          cases hsub : dfsPaths g ending fl (paths ++ [next]) nbrs2 with
          | error e =>
            rw [hsub] at h
            exact absurd h (by simp)
          | ok sub =>
            rw [hsub] at h
            cases hmore : dfsPaths g ending fl paths rest with
            | error e =>
              rw [hmore] at h
              exact absurd h (by simp)
            | ok more =>
              rw [hmore] at h
              obtain ⟨⟩ := Except.ok.inj h
              by_cases hnn : n = next
              · have hctl := hctlne hnn
                cases hc : ctl with
                | nil => exact absurd hc hctl
                | cons n2 ctl2 =>
                  subst hc
                  have hchn : adjEdge g n n2 ∧ List.Chain' (adjEdge g) (n2 :: ctl2) := by
                    rw [List.chain'_cons] at hch
                    exact hch
                  have hn2 : n2 ∈ nbrs2 := by
                    have he := hchn.1
                    unfold adjEdge at he
                    rw [hnn, hlk] at he
                    exact he
                  have hlastc2 : (n2 :: ctl2).getLast? = some ending := by
                    rw [List.getLast?_cons_cons] at hlastc
                    exact hlastc
                  have hnd2 : (n2 :: ctl2).Nodup := (List.nodup_cons.mp hnd).2
                  have hfresh2 : ∀ x ∈ (n2 :: ctl2).dropLast,
                      x ∉ paths ++ [next] ∧ x ≠ ending := by
                    intro x hx
                    have hxup : x ∈ (n :: n2 :: ctl2).dropLast := by
                      rw [List.dropLast_cons₂]
                      exact List.mem_cons_of_mem _ hx
                    have hxf := hfresh x hxup
                    refine ⟨?_, hxf.2⟩
                    intro hc
                    rcases List.mem_append.mp hc with hc | hc
                    · exact hxf.1 hc
                    · simp at hc
                      have hxin : x ∈ n2 :: ctl2 :=
                        (List.dropLast_sublist _).subset hx
                      have hnnot : n ∉ n2 :: ctl2 := (List.nodup_cons.mp hnd).1
                      rw [hc, ← hnn] at hxin
                      exact hnnot hxin
                  have hmem := ih (paths ++ [next]) nbrs2 sub n2 ctl2 hsub hn2
                    hchn.2 hlastc2 hnd2 hfresh2
                  have heq : paths ++ n :: n2 :: ctl2 = (paths ++ [next]) ++ n2 :: ctl2 := by
                    rw [← hnn]
                    rw [← List.append_cons]
                  rw [heq]
                  exact List.mem_append_left _ hmem
              · have hnrest : n ∈ rest := by
                  rcases List.mem_cons.mp hn with hc | hc
                  · exact absurd hc hnn
                  · exact hc
                exact List.mem_append_right _
                  (ih paths rest more n ctl hmore hnrest hch hlastc hnd hfresh)

theorem ne_getLast_of_mem_dropLast (l : List String) (x e : String)
    (hnd : l.Nodup) (hl : l.getLast? = some e) (hx : x ∈ l.dropLast) : x ≠ e := by
intro hxe
have hne : l ≠ [] := by
  intro hc
  rw [hc] at hl
  simp at hl
have hsplit : l.dropLast ++ [l.getLast hne] = l := List.dropLast_concat_getLast hne
have hge : l.getLast hne = e := by
  rw [List.getLast?_eq_getLast l hne] at hl
  exact Option.some_inj.mp hl
rw [← hsplit, List.nodup_append] at hnd
exact hnd.2.2 hx (by simp [hge, hxe])

/-- C4 (amended): whenever the depth-first search completes without
raising (the dict lookup on a dead-end table raises `KeyError` even when
a path exists) and the two tables differ, the returned path is a simple
path from start to end whose edge count is minimal among all simple
paths between them; among equal-length simple paths the code keeps the
first one discovered, which is what `min(..., key=len)` returns. -/
theorem findPath_shortest (g : Adj) (s e : String) (p : List String)
    (hse : s ≠ e)
    (h : getRelationshipPath g s e = Except.ok (some p)) :
    IsSimplePath g s e p ∧ ∀ q, IsSimplePath g s e q → p.length ≤ q.length := by
unfold getRelationshipPath at h
cases hlk : lookupAdj g s with
| none =>
  rw [hlk] at h
  exact absurd h (by simp)
| some nbrs =>
  rw [hlk] at h
  dsimp only at h
  cases hdfs : dfsPaths g e (pathFuel g nbrs) [s] nbrs with
  | error err =>
    rw [hdfs] at h
    exact absurd h (by simp)
  | ok l =>
    rw [hdfs] at h
    dsimp only at h
    have hp : minByLen l = some p := Except.ok.inj h
    have hmem := minByLen_mem l p hp
    have hsound := dfsPaths_sound g e (pathFuel g nbrs) [s] nbrs s l hdfs
      (by simp) (List.nodup_singleton s) (by simpa using Ne.symm hse)
      (List.chain'_singleton s) (by simp)
      (fun x hx => by unfold adjEdge; rw [hlk]; exact hx)
    have hps := hsound p hmem
    constructor
    · exact ⟨by simpa using hps.1, hps.2.1, hps.2.2.1, hps.2.2.2⟩
    · intro q hq
      obtain ⟨hqh, hql, hqnd, hqch⟩ := hq
      cases q with
      | nil => simp at hqh
      | cons q0 ctl =>
        have hq0 : q0 = s := by simpa using hqh
        subst hq0
        cases ctl with
        | nil =>
          simp at hql
          exact absurd hql hse
        | cons n ctl2 =>
          have hedge : adjEdge g q0 n ∧ List.Chain' (adjEdge g) (n :: ctl2) := by
            rw [List.chain'_cons] at hqch
            exact hqch
          have hnnbrs : n ∈ nbrs := by
            have he := hedge.1
            unfold adjEdge at he
            rw [hlk] at he
            exact he
          have hlast2 : (n :: ctl2).getLast? = some e := by
            rw [List.getLast?_cons_cons] at hql
            exact hql
          have hnd2 : (n :: ctl2).Nodup := (List.nodup_cons.mp hqnd).2
          have hfresh : ∀ x ∈ (n :: ctl2).dropLast, x ∉ [q0] ∧ x ≠ e := by
            intro x hx
            constructor
            · intro hc
              simp at hc
              have hxin : x ∈ n :: ctl2 := (List.dropLast_sublist _).subset hx
              have hq0nin : q0 ∉ n :: ctl2 := (List.nodup_cons.mp hqnd).1
              rw [hc] at hxin
              exact hq0nin hxin
            · exact ne_getLast_of_mem_dropLast (n :: ctl2) x e hnd2 hlast2 hx
          have hcomp := dfsPaths_complete g e (pathFuel g nbrs) [q0] nbrs l n ctl2
            hdfs hnnbrs hedge.2 hlast2 hnd2 hfresh
          have hqeq : [q0] ++ n :: ctl2 = q0 :: n :: ctl2 := rfl
          rw [hqeq] at hcomp
          exact minByLen_le l p hp _ hcomp

/-- C4 counterexample: on the fork graph a → b, a → c (with b a dead
end), the simple path [a, c] exists, yet findPath(a, c) does not return
any path - it raises the `KeyError` of looking up the dead-end table b
reached first in depth-first order. -/
theorem findPath_shortest_counterexample :
    getRelationshipPath gFork "a" "c" = Except.error (PyErr.keyError "b") ∧
    IsSimplePath gFork "a" "c" ["a", "c"] :=
⟨rfl, ⟨rfl, rfl, by decide, List.chain'_pair.mpr (by decide)⟩⟩

/-- Witness for the amended C4 theorem on the line graph a ↔ b ↔ c. -/
theorem findPath_shortest_witness :
    ("a" : String) ≠ "c" ∧
    getRelationshipPath gLine "a" "c" = Except.ok (some ["a", "b", "c"]) ∧
    IsSimplePath gLine "a" "c" ["a", "b", "c"] :=
⟨by decide, rfl, (findPath_shortest gLine "a" "c" ["a", "b", "c"] (by decide) rfl).1⟩

theorem exceptMapM_ok_mem {α β : Type} (f : α → Except PyErr β) :
    ∀ (l : List α) (ys : List β), l.mapM f = Except.ok ys →
      (∀ y ∈ ys, ∃ x ∈ l, f x = Except.ok y) ∧
      (∀ x ∈ l, ∃ y ∈ ys, f x = Except.ok y) := by
intro l
induction l with
| nil =>
  intro ys h
  rw [List.mapM_nil] at h
  obtain ⟨⟩ := Except.ok.inj h
  constructor
  · intro y hy
    simp at hy
  · intro x hx
    simp at hx
| cons a tl ih =>
  intro ys h
  rw [List.mapM_cons] at h
  cases hfa : f a with
  | error e =>
    rw [hfa] at h
    dsimp only [Bind.bind, Except.bind] at h
    exact absurd h (by simp)
  | ok b =>
    rw [hfa] at h
    cases htl : tl.mapM f with
    | error e =>
      rw [htl] at h
      dsimp only [Bind.bind, Except.bind] at h
      exact absurd h (by simp)
    | ok bs =>
      rw [htl] at h
      dsimp only [Bind.bind, Except.bind] at h
      obtain ⟨⟩ := Except.ok.inj h
      obtain ⟨ihb, ihf⟩ := ih bs htl
      constructor
      · intro y hy
        rcases List.mem_cons.mp hy with hy | hy
        · exact ⟨a, List.mem_cons_self _ _, by rw [hfa, hy]⟩
        · obtain ⟨x, hx, hfx⟩ := ihb y hy
          exact ⟨x, List.mem_cons_of_mem _ hx, hfx⟩
      · intro x hx
        rcases List.mem_cons.mp hx with hx | hx
        · exact ⟨b, List.mem_cons_self _ _, by rw [hx, hfa]⟩
        · obtain ⟨y, hy, hfy⟩ := ihf x hx
          exact ⟨y, List.mem_cons_of_mem _ hy, hfy⟩

theorem minCandidate_spec :
    ∀ (cands : List (Option (List String))) (p : List String),
      minCandidate cands = Except.ok p →
      some p ∈ cands ∧ ∀ q, some q ∈ cands → p.length ≤ q.length := by
intro cands
induction cands with
| nil =>
  intro p h
  exact absurd h (by simp [minCandidate])
| cons c rest ih =>
  intro p h
  cases c with
  | none => exact absurd h (by simp [minCandidate])
  | some p0 =>
    cases rest with
    | nil =>
      simp only [minCandidate] at h
      obtain ⟨⟩ := Except.ok.inj h
      constructor
      · exact List.mem_cons_self _ _
      · intro q hq
        simp at hq
        rw [hq]
    | cons c2 rest2 =>
      have hunf : minCandidate (some p0 :: c2 :: rest2) =
          match minCandidate (c2 :: rest2) with
          | Except.error e => Except.error e
          | Except.ok q => Except.ok (if q.length < p0.length then q else p0) := rfl
      rw [hunf] at h
      cases hm : minCandidate (c2 :: rest2) with
      | error e =>
        rw [hm] at h
        exact absurd h (by simp)
      | ok q0 =>
        rw [hm] at h
        obtain ⟨⟩ := Except.ok.inj h
        obtain ⟨ihm, ihb⟩ := ih q0 hm
        by_cases hlt : q0.length < p0.length
        · rw [if_pos hlt]
          constructor
          · exact List.mem_cons_of_mem _ ihm
          · intro q hq
            rcases List.mem_cons.mp hq with hq | hq
            · rw [Option.some_inj.mp hq]
              exact le_of_lt hlt
            · exact ihb q hq
        · rw [if_neg hlt]
          constructor
          · exact List.mem_cons_self _ _
          · intro q hq
            rcases List.mem_cons.mp hq with hq | hq
            · rw [Option.some_inj.mp hq]
            · exact le_trans (Nat.le_of_not_lt hlt) (ihb q hq)

theorem coveredTables_iff :
    ∀ (sps : List (Option (List String))) (cov : List String),
      coveredTables sps = Except.ok cov →
      ∀ x, x ∈ cov ↔ ∃ p, some p ∈ sps ∧ x ∈ p := by
intro sps
induction sps with
| nil =>
  intro cov h x
  simp only [coveredTables] at h
  obtain ⟨⟩ := Except.ok.inj h
  simp
| cons c rest ih =>
  intro cov h x
  cases c with
  | none => exact absurd h (by simp [coveredTables])
  | some p0 =>
    simp only [coveredTables] at h
    cases hr : coveredTables rest with
    | error e =>
      rw [hr] at h
      exact absurd h (by simp)
    | ok acc =>
      rw [hr] at h
      obtain ⟨⟩ := Except.ok.inj h
      rw [List.mem_dedup, List.mem_append]
      constructor
      · intro hx
        rcases hx with hx | hx
        · exact ⟨p0, List.mem_cons_self _ _, hx⟩
        · obtain ⟨p, hp, hxp⟩ := (ih acc hr x).mp hx
          exact ⟨p, List.mem_cons_of_mem _ hp, hxp⟩
      · rintro ⟨p, hp, hxp⟩
        rcases List.mem_cons.mp hp with hp | hp
        · left
          rw [← Option.some_inj.mp hp]
          exact hxp
        · right
          exact (ih acc hr x).mpr ⟨p, hp, hxp⟩

theorem multiStep_extends (g : Adj) (sps sps' : List (Option (List String)))
    (t : String) (h : multiStep g sps t = Except.ok sps') :
    sps' = sps ∨ ∃ p, sps' = sps ++ [some p] := by
unfold multiStep at h
cases hcov : coveredTables sps with
| error e =>
  rw [hcov] at h
  exact absurd h (by simp)
| ok distinct =>
  rw [hcov] at h
  dsimp only at h
  by_cases hmem : t ∈ distinct
  · rw [if_pos hmem] at h
    left
    exact (Except.ok.inj h).symm
  · rw [if_neg hmem] at h
    cases hcands : distinct.mapM (fun s => getRelationshipPath g s t) with
    | error e =>
      rw [hcands] at h
      exact absurd h (by simp)
    | ok cands =>
      rw [hcands] at h
      dsimp only at h
      cases hmc : minCandidate cands with
      | error e =>
        rw [hmc] at h
        exact absurd h (by simp)
      | ok p =>
        rw [hmc] at h
        right
        exact ⟨p, (Except.ok.inj h).symm⟩

theorem foldlM_multiStep_head (g : Adj) :
    ∀ (rest : List String) (acc sps : List (Option (List String))),
      List.foldlM (multiStep g) acc rest = Except.ok sps →
      acc ≠ [] → sps.head? = acc.head? := by
intro rest
induction rest with
| nil =>
  intro acc sps h hne
  rw [List.foldlM_nil] at h
  rw [← Except.ok.inj h]
| cons t rest' ih =>
  intro acc sps h hne
  rw [List.foldlM_cons] at h
  cases hstep : multiStep g acc t with
  | error e =>
    rw [hstep] at h
    dsimp only [Bind.bind, Except.bind] at h
    exact absurd h (by simp)
  | ok acc' =>
    rw [hstep] at h
    dsimp only [Bind.bind, Except.bind] at h
    have hext := multiStep_extends g acc acc' t hstep
    have hne' : acc' ≠ [] := by
      rcases hext with hext | ⟨p, hext⟩
      · rw [hext]
        exact hne
      · rw [hext]
        intro hc
        exact absurd (List.append_eq_nil.mp hc).1 hne
    have hh := ih acc' sps h hne'
    rw [hh]
    rcases hext with hext | ⟨p, hext⟩
    · rw [hext]
    · rw [hext]
      cases acc with
      | nil => exact absurd rfl hne
      | cons a0 atl => rfl

/-- C6: the multi-table path resolver first resolves the shortest path
between the first two requested tables; each further requested table is
skipped when it is already in the union of the tables of the resolved
sub-paths, and otherwise the appended sub-path is a shortest resolved
path from one of the already-covered tables to the new table; in
particular over tables [a, b, c] of the line graph with only a ↔ b and
b ↔ c edges it produces exactly the two sub-paths [a, b] and [b, c]
rather than any direct a-to-c resolution. -/
theorem multiPath_incremental (g : Adj) :
    (getMultiRelPath gLine ["a", "b", "c"] =
      Except.ok [some ["a", "b"], some ["b", "c"]]) ∧
    (∀ t0 t1 rest sps, getMultiRelPath g (t0 :: t1 :: rest) = Except.ok sps →
      ∃ p0, getRelationshipPath g t0 t1 = Except.ok p0 ∧ sps.head? = some p0) ∧
    (∀ sps covered t, coveredTables sps = Except.ok covered →
      (∀ x, x ∈ covered ↔ ∃ p, some p ∈ sps ∧ x ∈ p) ∧
      (t ∈ covered → multiStep g sps t = Except.ok sps)) ∧
    (∀ sps covered t sps', coveredTables sps = Except.ok covered →
      t ∉ covered → multiStep g sps t = Except.ok sps' →
      ∃ p, sps' = sps ++ [some p] ∧
        (∃ s ∈ covered, getRelationshipPath g s t = Except.ok (some p)) ∧
        (∀ s ∈ covered, ∀ q, getRelationshipPath g s t = Except.ok (some q) →
          p.length ≤ q.length)) := by
refine ⟨rfl, ?_, ?_, ?_⟩
· intro t0 t1 rest sps h
  unfold getMultiRelPath at h
  dsimp only at h
  cases hp0 : getRelationshipPath g t0 t1 with
  | error e =>
    rw [hp0] at h
    exact absurd h (by simp)
  | ok p0 =>
    rw [hp0] at h
    dsimp only at h
    exact ⟨p0, rfl, foldlM_multiStep_head g rest [p0] sps h (by simp)⟩
· intro sps covered t hcov
  refine ⟨coveredTables_iff sps covered hcov, ?_⟩
  intro hmem
  unfold multiStep
  rw [hcov]
  dsimp only
  rw [if_pos hmem]
· intro sps covered t sps' hcov hnmem h
  unfold multiStep at h
  rw [hcov] at h
  dsimp only at h
  rw [if_neg hnmem] at h
  cases hcands : covered.mapM (fun s => getRelationshipPath g s t) with
  | error e =>
    rw [hcands] at h
    exact absurd h (by simp)
  | ok cands =>
    rw [hcands] at h
    dsimp only at h
    cases hmc : minCandidate cands with
    | error e =>
      rw [hmc] at h
      exact absurd h (by simp)
    | ok p =>
      rw [hmc] at h
      obtain ⟨hpm, hpb⟩ := minCandidate_spec cands p hmc
      obtain ⟨hback, hforth⟩ := exceptMapM_ok_mem (fun s => getRelationshipPath g s t) covered cands hcands
      refine ⟨p, (Except.ok.inj h).symm, ?_, ?_⟩
      · obtain ⟨s, hs, hfs⟩ := hback (some p) hpm
        exact ⟨s, hs, hfs⟩
      · intro s hs q hq
        obtain ⟨y, hy, hfy⟩ := hforth s hs
        rw [hq] at hfy
        rw [← Except.ok.inj hfy] at hy
        exact hpb q hy

/-- Witness for C6 at the line graph: linking table c into the plan
[[a, b]] appends the sub-path from an already-covered table. -/
theorem multiPath_incremental_witness :
    coveredTables [some ["a", "b"]] = Except.ok ["a", "b"] ∧
    ("c" ∉ (["a", "b"] : List String)) ∧
    multiStep gLine [some ["a", "b"]] "c" =
      Except.ok [some ["a", "b"], some ["b", "c"]] ∧
    (∃ p, ([some ["a", "b"], some ["b", "c"]] : List (Option (List String))) =
        [some ["a", "b"]] ++ [some p] ∧
      ∃ s ∈ (["a", "b"] : List String),
        getRelationshipPath gLine s "c" = Except.ok (some p)) := by
refine ⟨rfl, by decide, rfl, ?_⟩
obtain ⟨p, hp1, hp2, hp3⟩ := (multiPath_incremental gLine).2.2.2
  [some ["a", "b"]] ["a", "b"] "c" [some ["a", "b"], some ["b", "c"]]
  rfl (by decide) rfl
exact ⟨p, hp1, hp2⟩

/-- Integer column (int64 dtype). -/
def intCol (ns : List Int) : Series :=
⟨DType.intDt, ns.map (fun n => some (PyVal.pint n))⟩

/-- String column (object dtype). -/
def strCol (ss : List String) : Series :=
⟨DType.objectDt, ss.map (fun s => some (PyVal.pstr s))⟩

/-- The unreachable-table scenario of the specification: orders,
customers and cities with concrete data whose inference yields exactly
the relationship orders.customer_id → customers.customer_id; no edge
touches cities, which is therefore unreachable from orders/customers. -/
def scenarioStore : TableStore :=
[("orders", [("order_id", intCol [1, 2, 3]), ("customer_id", intCol [10, 10, 20])]),
 ("customers", [("customer_id", intCol [10, 20]), ("name", strCol ["ann", "bob"])]),
 ("cities", [("city_id", intCol [100, 200]), ("name", strCol ["x", "y"])])]

/-- The merge request of the scenario. -/
def scenarioSelection : List (String × List String) :=
[("orders", ["order_id"]), ("customers", ["name"]), ("cities", ["name"])]

/-- C7 counterexample: on the scenario the merge does abort, but with the
`KeyError` of looking up the dead-end table customers in the adjacency
dictionary during the path search - not with a NoPathFound error; no
such error kind exists in the code, whose only deliberately raised
exception is the planner's "No mapping found" one, which is never
reached here. -/
theorem easy_merge_no_path_counterexample :
    getMapping scenarioStore =
      [⟨"orders", "customer_id", "customers", "customer_id", some 1⟩] ∧
    easyMerge (mkCsvDatabase scenarioStore) scenarioSelection =
      Except.error (PyErr.keyError "customers") :=
⟨rfl, rfl⟩

/-- C7 (amended): requesting the scenario merge aborts with an unhandled
lookup error (a `KeyError` escaping the path search) and produces no
partial result; the failure is reported to the caller only as that
accidental exception, not as a dedicated NoPathFound error. -/
theorem easy_merge_no_path_aborts :
    ∃ t, easyMerge (mkCsvDatabase scenarioStore) scenarioSelection =
      Except.error (PyErr.keyError t) :=
⟨"customers", rfl⟩

/-- Execution step as the specification words it, for every step after
the first: the step fetches both tables (the left fetch can raise the
lookup error even though the running result replaces the left copy as
the join operand) and inner-joins the accumulated frame with the tagged
copy of the right table on the resolved key columns. -/
def specStep (ts : TableStore) (df : Frame) (s : MapRow) : Except PyErr Frame :=
match lookupTable ts s.from_table with
| Except.error e => Except.error e
| Except.ok _ =>
  match lookupTable ts s.to_table with
  | Except.error e => Except.error e
  | Except.ok rt =>
    innerMerge df (tagColsFrame s.to_table (frameOfTable rt))
      (s.from_table ++ "_" ++ s.from_column) (s.to_table ++ "_" ++ s.to_column)

/-- Execution of a planned merge sequence as the specification words it:
the first step inner-joins the tagged copies of its two tables, each
later step joins the accumulated frame with the tagged copy of its right
table, and the final frame is projected to the requested columns; an
empty plan leaves no frame to project (the `None` subscript TypeError).
-/
def specExecute (ts : TableStore) (steps : List MapRow) (req : List String) :
    Except PyErr Frame :=
match steps with
| [] => Except.error (PyErr.typeError "NoneType is not subscriptable")
| s0 :: rest =>
  match lookupTable ts s0.from_table with
  | Except.error e => Except.error e
  | Except.ok lt =>
    match lookupTable ts s0.to_table with
    | Except.error e => Except.error e
    | Except.ok rt =>
      match innerMerge (tagColsFrame s0.from_table (frameOfTable lt))
          (tagColsFrame s0.to_table (frameOfTable rt))
          (s0.from_table ++ "_" ++ s0.from_column)
          (s0.to_table ++ "_" ++ s0.to_column) with
      | Except.error e => Except.error e
      | Except.ok first =>
        match List.foldlM (specStep ts) first rest with
        | Except.error e => Except.error e
        | Except.ok final => projectCols final req

theorem execStep_some_eq (ts : TableStore) (df : Frame) (s : MapRow)
    (h : s.subset_ratio = none) :
    execStep ts (some df) s = (specStep ts df s).map some := by
unfold execStep specStep
rw [h]
simp only [Option.isSome_none, Bool.false_eq_true, if_false]
cases lookupTable ts s.from_table with
| error e => rfl
| ok lt =>
  cases lookupTable ts s.to_table with
  | error e => rfl
  | ok rt =>
    dsimp only
    cases innerMerge df (tagColsFrame s.to_table (frameOfTable rt))
        (s.from_table ++ "_" ++ s.from_column) (s.to_table ++ "_" ++ s.to_column) with
    | error e => rfl
    | ok df2 => rfl

theorem execStep_fold_eq (ts : TableStore) :
    ∀ (steps : List MapRow) (df : Frame),
      (∀ r ∈ steps, r.subset_ratio = none) →
      List.foldlM (execStep ts) (some df) steps =
        (List.foldlM (specStep ts) df steps).map some := by
intro steps
induction steps with
| nil =>
  intro df h
  rw [List.foldlM_nil, List.foldlM_nil]
  rfl
| cons s rest ih =>
  intro df h
  rw [List.foldlM_cons, List.foldlM_cons]
  rw [execStep_some_eq ts df s (h s (List.mem_cons_self _ _))]
  cases hs : specStep ts df s with
  | error e =>
    dsimp only [Except.map, Bind.bind, Except.bind]
  | ok df' =>
    dsimp only [Except.map, Bind.bind, Except.bind]
    exact ih df' (fun r hr => h r (List.mem_cons_of_mem _ hr))

theorem resolveStep_mem (m : List MapRow) (l r : String) (row : MapRow)
    (h : resolveStep m l r = Except.ok row) : row ∈ m := by
unfold resolveStep at h
cases hx : rowsBetween m l r with
| nil =>
  rw [hx] at h
  exact absurd h (by simp)
| cons a tl =>
  cases tl with
  | nil =>
    rw [hx] at h
    have ha : a = row := Except.ok.inj h
    have : a ∈ rowsBetween m l r := by
      rw [hx]
      exact List.mem_cons_self _ _
    rw [← ha]
    exact List.mem_of_mem_filter this
  | cons b tl2 =>
    rw [hx] at h
    exact absurd h (by simp)

theorem getMergeSequence_subset (m : List MapRow) :
    ∀ (mp : List (Option (List String))) (sq : List MapRow),
      getMergeSequence m mp = Except.ok sq → ∀ r ∈ sq, r ∈ m := by
intro mp
induction mp with
| nil =>
  intro sq h r hr
  simp only [getMergeSequence] at h
  obtain ⟨⟩ := Except.ok.inj h
  simp at hr
| cons c rest ih =>
  intro sq h r hr
  cases c with
  | none => exact absurd h (by simp [getMergeSequence])
  | some p =>
    simp only [getMergeSequence] at h
    cases hhd : (consecPairs p).mapM (fun pr => resolveStep m pr.1 pr.2) with
    | error e =>
      rw [hhd] at h
      exact absurd h (by simp)
    | ok seqHead =>
      rw [hhd] at h
      cases htl : getMergeSequence m rest with
      | error e =>
        rw [htl] at h
        exact absurd h (by simp)
      | ok seqTail =>
        rw [htl] at h
        obtain ⟨⟩ := Except.ok.inj h
        rcases List.mem_append.mp hr with hr | hr
        · obtain ⟨pr, _, hres⟩ :=
            (exceptMapM_ok_mem (fun pr => resolveStep m pr.1 pr.2) (consecPairs p) seqHead hhd).1 r hr
          exact resolveStep_mem m pr.1 pr.2 r hres
        · exact ih seqTail htl r hr

theorem projectCols_ok_cols (f : Frame) (cs : List String) (f' : Frame)
    (h : projectCols f cs = Except.ok f') : f'.cols = cs := by
unfold projectCols at h
cases hidx : cs.mapM (fun c => match f.cols.findIdx? (fun x => x = c) with
  | none => Except.error (PyErr.keyError c)
  | some i => Except.ok i) with
| error e =>
  rw [hidx] at h
  exact absurd h (by simp)
| ok idxs =>
  rw [hidx] at h
  rw [← Except.ok.inj h]

/-- C8 (amended): when the relationship rows carry exactly the four join
fields (as the SQL mapping provides - the CSV mapping's fifth
subset_ratio value instead makes the execution loop's four-name tuple
unpacking raise ValueError on the first step), easy_merge executes every
successfully planned merge sequence exactly as the specification
describes: the first step inner-joins the two tagged table copies, each
later step inner-joins the accumulated frame with the tagged right
table on the resolved key columns, and any frame it returns holds
exactly the caller-requested "<table>_<column>" columns in the caller's
requested order. -/
theorem easy_merge_executes_plan (db : PyDatabase) (sel : List (String × List String))
    (h4 : ∀ r ∈ db.columns_mapping, r.subset_ratio = none) :
    (∀ mp sq,
      getMultiRelPath (adjOfMapping db.columns_mapping) (sel.map (fun kv => kv.1)) =
        Except.ok mp →
      getMergeSequence db.columns_mapping mp = Except.ok sq →
      easyMerge db sel = specExecute db.tables sq (requestedCols sel)) ∧
    (∀ f, easyMerge db sel = Except.ok f → f.cols = requestedCols sel) := by
have hmain : ∀ mp sq,
    getMultiRelPath (adjOfMapping db.columns_mapping) (sel.map (fun kv => kv.1)) =
      Except.ok mp →
    getMergeSequence db.columns_mapping mp = Except.ok sq →
    easyMerge db sel = specExecute db.tables sq (requestedCols sel) := by
  intro mp sq hmp hsq
  have hsub : ∀ r ∈ sq, r.subset_ratio = none := by
    intro r hr
    exact h4 r (getMergeSequence_subset db.columns_mapping mp sq hsq r hr)
  unfold easyMerge
  rw [hmp]
  dsimp only
  rw [hsq]
  dsimp only
  cases sq with
  | nil =>
    rw [List.foldlM_nil]
    rfl
  | cons s0 rest =>
    rw [List.foldlM_cons]
    unfold specExecute
    dsimp only
    have hs0 : s0.subset_ratio = none := hsub s0 (List.mem_cons_self _ _)
    have hstep0 : execStep db.tables none s0 =
        (match lookupTable db.tables s0.from_table with
         | Except.error e => Except.error e
         | Except.ok _ =>
           match lookupTable db.tables s0.to_table with
           | Except.error e => Except.error e
           | Except.ok rt2 =>
             match innerMerge (tagColsFrame s0.from_table (frameOfTable
                 (match lookupTable db.tables s0.from_table with
                  | Except.ok lt => lt
                  | Except.error _ => [])))
                 (tagColsFrame s0.to_table (frameOfTable rt2))
                 (s0.from_table ++ "_" ++ s0.from_column)
                 (s0.to_table ++ "_" ++ s0.to_column) with
             | Except.error e => Except.error e
             | Except.ok df => Except.ok (some df)) := by
      unfold execStep
      rw [hs0]
      simp only [Option.isSome_none, Bool.false_eq_true, if_false]
      cases lookupTable db.tables s0.from_table with
      | error e => rfl
      | ok lt =>
        cases lookupTable db.tables s0.to_table with
        | error e => rfl
        | ok rt => rfl
    cases hlt : lookupTable db.tables s0.from_table with
    | error e =>
      rw [hstep0, hlt]
      dsimp only [Bind.bind, Except.bind]
    | ok lt =>
      cases hrt : lookupTable db.tables s0.to_table with
      | error e =>
        rw [hstep0, hlt, hrt]
        dsimp only [Bind.bind, Except.bind]
      | ok rt =>
        rw [hstep0, hlt, hrt]
        dsimp only [Bind.bind, Except.bind]
        cases hjm : innerMerge (tagColsFrame s0.from_table (frameOfTable lt))
            (tagColsFrame s0.to_table (frameOfTable rt))
            (s0.from_table ++ "_" ++ s0.from_column)
            (s0.to_table ++ "_" ++ s0.to_column) with
        | error e => dsimp only
        | ok first =>
          dsimp only
          have hrest : ∀ r ∈ rest, r.subset_ratio = none :=
            fun r hr => hsub r (List.mem_cons_of_mem _ hr)
          rw [execStep_fold_eq db.tables rest first hrest]
          cases hfold : List.foldlM (specStep db.tables) first rest with
          | error e =>
            dsimp only [Except.map]
          | ok final =>
            dsimp only [Except.map]
refine ⟨hmain, ?_⟩
intro f hf
cases hmp : getMultiRelPath (adjOfMapping db.columns_mapping) (sel.map (fun kv => kv.1)) with
| error e =>
  rw [easyMerge, hmp] at hf
  exact absurd hf (by simp)
| ok mp =>
  cases hsq : getMergeSequence db.columns_mapping mp with
  | error e =>
    rw [easyMerge, hmp] at hf
    dsimp only at hf
    rw [hsq] at hf
    exact absurd hf (by simp)
  | ok sq =>
    rw [hmain mp sq hmp hsq] at hf
    unfold specExecute at hf
    cases sq with
    | nil => exact absurd hf (by simp)
    | cons s0 rest =>
      dsimp only at hf
      cases hlt : lookupTable db.tables s0.from_table with
      | error e =>
        rw [hlt] at hf
        exact absurd hf (by simp)
      | ok lt =>
        rw [hlt] at hf
        dsimp only at hf
        cases hrt : lookupTable db.tables s0.to_table with
        | error e =>
          rw [hrt] at hf
          exact absurd hf (by simp)
        | ok rt =>
          rw [hrt] at hf
          dsimp only at hf
          cases hjm : innerMerge (tagColsFrame s0.from_table (frameOfTable lt))
              (tagColsFrame s0.to_table (frameOfTable rt))
              (s0.from_table ++ "_" ++ s0.from_column)
              (s0.to_table ++ "_" ++ s0.to_column) with
          | error e =>
            rw [hjm] at hf
            exact absurd hf (by simp)
          | ok first =>
            rw [hjm] at hf
            dsimp only at hf
            cases hfold : List.foldlM (specStep db.tables) first rest with
            | error e =>
              rw [hfold] at hf
              exact absurd hf (by simp)
            | ok final =>
              rw [hfold] at hf
              dsimp only at hf
              exact projectCols_ok_cols final (requestedCols sel) f hf

/-- Store whose CSV inference yields exactly one relationship row, so
that path resolution and merge planning both succeed and execution is
reached. -/
def unpackStore : TableStore :=
[("ta", [("id", intCol [1, 2, 3]), ("b_id", intCol [5, 5, 6])]),
 ("tb", [("b_id", intCol [5, 6])])]

/-- The merge request over that store. -/
def unpackSelection : List (String × List String) :=
[("ta", ["id"]), ("tb", ["b_id"])]

/-- C8 counterexample: over the CSV-inferred mapping the merge sequence
is planned successfully, yet execution performs no join at all - the
five-valued mapping row (the four join fields plus subset_ratio) cannot
be unpacked into the loop's four names, and the first step raises
ValueError instead. -/
theorem easy_merge_unpack_counterexample :
    getMergeSequence (mkCsvDatabase unpackStore).columns_mapping [some ["ta", "tb"]] =
      Except.ok [⟨"ta", "b_id", "tb", "b_id", some 1⟩] ∧
    easyMerge (mkCsvDatabase unpackStore) unpackSelection =
      Except.error (PyErr.valueError "too many values to unpack") :=
⟨rfl, rfl⟩

/-- Database over the same store with the four-field (SQL-style)
relationship row. -/
def sqlStyleDb : PyDatabase :=
⟨unpackStore, [⟨"ta", "b_id", "tb", "b_id", none⟩]⟩

/-- Witness for the amended C8 theorem: with the four-field mapping the
merge executes and returns exactly the requested tagged columns in the
requested order. -/
theorem easy_merge_executes_plan_witness :
    (∀ r ∈ sqlStyleDb.columns_mapping, r.subset_ratio = none) ∧
    easyMerge sqlStyleDb unpackSelection = Except.ok
      ⟨["ta_id", "tb_b_id"],
       [[some (PyVal.pint 1), some (PyVal.pint 5)],
        [some (PyVal.pint 2), some (PyVal.pint 5)],
        [some (PyVal.pint 3), some (PyVal.pint 6)]]⟩ ∧
    (Frame.mk ["ta_id", "tb_b_id"]
       [[some (PyVal.pint 1), some (PyVal.pint 5)],
        [some (PyVal.pint 2), some (PyVal.pint 5)],
        [some (PyVal.pint 3), some (PyVal.pint 6)]]).cols =
      requestedCols unpackSelection := by
have hnone : ∀ r ∈ sqlStyleDb.columns_mapping, r.subset_ratio = none := by
  intro r hr
  simp only [sqlStyleDb, List.mem_singleton] at hr
  rw [hr]
refine ⟨hnone, rfl, ?_⟩
exact (easy_merge_executes_plan sqlStyleDb unpackSelection hnone).2 _ rfl

/-- One-row mapping used to witness the planner's single-match case. -/
def oneRowMapping : List MapRow :=
[⟨"a", "x", "b", "x", none⟩]

/-- Witness for the amended C2 theorem: exactly one matching row is used
as the join step, and the two-match mapping raises the generic
exception. -/
theorem merge_planning_match_dispatch_witness :
    ((rowsBetween oneRowMapping "a" "b").length = 1 ∧
     getMergeSequence oneRowMapping [some ["a", "b"]] =
       Except.ok (rowsBetween oneRowMapping "a" "b")) ∧
    ((rowsBetween ambMapping "a" "b").length ≠ 1 ∧
     getMergeSequence ambMapping [some ["a", "b"]] =
       Except.error (PyErr.exception ("No mapping found between " ++ "a" ++ " and " ++ "b"))) :=
⟨⟨rfl, (merge_planning_match_dispatch oneRowMapping "a" "b").1 rfl⟩,
 ⟨by decide, (merge_planning_match_dispatch ambMapping "a" "b").2 (by decide)⟩⟩

/-- Witness for the C9 theorem: a three-cell object column with two
distinct values, on neither side of the relationship set, is classified
as categorical/nominal with mode "x" of frequency 2. -/
theorem classifier_text_categorical_witness :
    (strCol ["x", "y", "x"]).dtype = DType.objectDt ∧
    nuniqueCol (strCol ["x", "y", "x"]).values ≤ 10 ∧
    (classifyColumn (fun _ _ => "") [] [] [] "t" "c" (strCol ["x", "y", "x"])).ptype =
      "categorical" ∧
    (classifyColumn (fun _ _ => "") [] [] [] "t" "c" (strCol ["x", "y", "x"])).subtype =
      "nominal" := by
have h := classifier_text_categorical (fun _ _ => "") [] [] [] "t" "c"
  (strCol ["x", "y", "x"]) rfl (by simp) (by simp) (by decide) (by decide)
  (by decide) (by decide)
exact ⟨rfl, by decide, (h.2.1 (by decide)).1, (h.2.1 (by decide)).2⟩

/-- Two tables sharing the column name c. -/
def twoTableStore : TableStore :=
[("t1", [("c", strCol ["x"])]), ("t2", [("c", strCol ["y"])])]

/-- Witness for the C10 theorem: both the row (t1, c, t2, c) and its
reverse are emitted for two distinct tables sharing column c. -/
theorem names_mapping_symmetric_witness :
    (⟨"t1", "c", "t2", "c"⟩ : NameRow) ∈ getMappingByNames twoTableStore ∧
    (⟨"t2", "c", "t1", "c"⟩ : NameRow) ∈ getMappingByNames twoTableStore := by
have h1 : (⟨"t1", "c", "t2", "c"⟩ : NameRow) ∈ getMappingByNames twoTableStore := by
  refine (names_mapping_symmetric twoTableStore _).1.mpr ⟨rfl, by decide, ?_, ?_⟩
  · exact ⟨[("c", strCol ["x"])], by decide, by decide⟩
  · exact ⟨[("c", strCol ["y"])], by decide, by decide⟩
exact ⟨h1, (names_mapping_symmetric twoTableStore _).2 h1⟩
